import Mathlib

/-!
Shallow embedding of the `brutal_tetris_hacker` repository (Rust) for
specification checking.

Source layout notes:
* `src/util.rs` — `Pos`, `Size` (plain records of `usize`, embedded as `Nat`).
* `src/tetra.rs` — the shape catalog (19 tetromino orientations), placement
  validation (`PlacedTetraInBoundaries::in_boundaries`) and materialisation
  (`iter_relative_to_place`), plus the `RandomTetras` shuffle generator,
  embedded with an explicit supply of index choices (`seq : Nat → Nat`,
  consumed modulo the catalog size, standing for `rng.gen_range(0..19)`).
* `src/algorithm.rs` — the randomized bounded search engine
  (`RecursionState`); recursion is embedded with an explicit fuel parameter,
  and every operation that can panic in Rust (out-of-bounds grid indexing,
  `Vec::pop().unwrap()`, integer underflow avoided by the same guards as the
  source) is `Option`-valued, `none` standing for a panic.
* `src/main.rs` (module `brute_force`) — the older exhaustive engine,
  embedded separately (`bf*` definitions below).
* `src/parse_field.rs` — the text-format field reader, embedded over
  `List Char` (Rust byte offsets agree with character offsets for the
  single-byte glyphs exercised here; lengths are character counts).

Machine integers: all the Rust integers involved are `usize` used as small
counters; arithmetic is embedded over `Nat`.  Subtractions are guarded in
the source exactly where they are guarded here, and `Nat` truncated
subtraction is only ever exercised where the source cannot underflow.
The one floating-point expression in the source,
`((how_many_free - min_free_cells) as f64).powf(0.5).floor() as usize`,
is embedded as `Nat.sqrt`, which is the mathematical `⌊√·⌋` the expression
computes on the (exactly representable) small values involved.
-/

namespace BrutalTetris

/-- Embeds `util::Pos` — grid coordinate (row, col), zero based. -/
structure Pos where
  row : Nat
  col : Nat
deriving DecidableEq, Repr

/-- Embeds `util::Size` — extents (rows, cols). -/
structure Size where
  rows : Nat
  cols : Nat
deriving DecidableEq, Repr

/-- Embeds `impl Add for &Pos` in `util.rs`. -/
def Pos.add (a b : Pos) : Pos :=
  { row := a.row + b.row, col := a.col + b.col }

/-- Embeds `tetra::Tetra` — four relative offsets, bounding size, column shift. -/
structure Tetra where
  positions : List Pos
  size : Size
  col_shift : Nat
deriving DecidableEq, Repr

/-- Embeds `tetra::TETRAS_COUNT`. -/
def TETRAS_COUNT : Nat := 19

/-- Embeds `tetra::const_tetra` — the bounding size is derived from the offsets
(maximum row+1 / col+1, starting from (1,1)); `col_shift` is passed in. -/
def const_tetra (ps : List (Nat × Nat)) (shift : Nat) : Tetra :=
  let size := ps.foldl
    (fun (s : Nat × Nat) (p : Nat × Nat) => (max s.1 (p.1 + 1), max s.2 (p.2 + 1)))
    (1, 1)
  { positions := ps.map (fun p => { row := p.1, col := p.2 }),
    size := { rows := size.1, cols := size.2 },
    col_shift := shift }

/-- Embeds `tetra::TETRAS` — the fixed catalog of 19 orientations. -/
def TETRAS : List Tetra :=
  [ const_tetra [(0, 0), (0, 1), (1, 0), (1, 1)] 0,
    const_tetra [(0, 0), (0, 1), (0, 2), (0, 3)] 0,
    const_tetra [(0, 0), (1, 0), (2, 0), (3, 0)] 0,
    const_tetra [(0, 0), (0, 1), (0, 2), (1, 1)] 0,
    const_tetra [(0, 0), (1, 0), (1, 1), (2, 0)] 0,
    const_tetra [(0, 1), (1, 0), (1, 1), (1, 2)] 1,
    const_tetra [(0, 1), (1, 0), (1, 1), (2, 1)] 1,
    const_tetra [(0, 0), (0, 1), (0, 2), (1, 0)] 0,
    const_tetra [(0, 0), (1, 0), (2, 0), (2, 1)] 0,
    const_tetra [(0, 2), (1, 0), (1, 1), (1, 2)] 2,
    const_tetra [(0, 0), (0, 1), (1, 1), (2, 1)] 0,
    const_tetra [(0, 0), (0, 1), (0, 2), (1, 2)] 0,
    const_tetra [(0, 1), (1, 1), (2, 0), (2, 1)] 1,
    const_tetra [(0, 0), (1, 0), (1, 1), (1, 2)] 0,
    const_tetra [(0, 0), (0, 1), (1, 0), (2, 0)] 0,
    const_tetra [(0, 1), (0, 2), (1, 0), (1, 1)] 1,
    const_tetra [(0, 0), (1, 0), (1, 1), (2, 1)] 0,
    const_tetra [(0, 0), (0, 1), (1, 1), (1, 2)] 0,
    const_tetra [(0, 1), (1, 0), (1, 1), (2, 0)] 1 ]

/-- Placeholder tetra used only as the (never reached) `List.getD` default
when indexing the catalog with an index already reduced modulo 19. -/
def defaultTetra : Tetra := const_tetra [] 0

/-- Embeds `tetra::I_HORIZONTAL` (test handle, `&TETRAS[1]`). -/
def I_HORIZONTAL : Tetra := TETRAS.getD 1 defaultTetra

/-- Embeds `tetra::T_LOOK_LEFT` (test handle, `&TETRAS[6]`). -/
def T_LOOK_LEFT : Tetra := TETRAS.getD 6 defaultTetra

/-- Embeds `tetra::PlacedTetra` — a catalog shape plus an anchor position. -/
structure PlacedTetra where
  tetra : Tetra
  position : Pos
deriving DecidableEq, Repr

/-- Embeds `tetra::PlacedTetraInBoundaries` — the newtype certifying a placement
passed `in_boundaries`. -/
structure PlacedTetraInBoundaries where
  val : PlacedTetra
deriving DecidableEq, Repr

/-- Embeds `PlacedTetraInBoundaries::in_boundaries`: the bounds check.  The Rust
subtraction `position.col + tetra_size.cols - tetra_col_shift` is on `usize`;
for every catalog shape `size.cols ≥ col_shift`, so it never underflows and
agrees with `Nat` truncated subtraction. -/
def PlacedTetraInBoundaries.in_boundaries (placed : PlacedTetra) (boundaries : Size) :
    Option PlacedTetraInBoundaries :=
  let tetra := placed.tetra
  if tetra.col_shift > placed.position.col
      || placed.position.col + tetra.size.cols - tetra.col_shift > boundaries.cols
      || placed.position.row + tetra.size.rows > boundaries.rows
  then none
  else some { val := placed }

/-- Embeds `PlacedTetraInBoundaries::iter_relative_to_place`: the four absolute
cells (offset + anchor, column reduced by `col_shift`). -/
def PlacedTetraInBoundaries.iter_relative_to_place (t : PlacedTetraInBoundaries) :
    List Pos :=
  t.val.tetra.positions.map fun pos =>
    let p := pos.add t.val.position
    { row := p.row, col := p.col - t.val.tetra.col_shift }

/-- Embeds `tetra::RandomTetras`, with the thread RNG replaced by an explicit
supply `seq` of choices (read modulo `TETRAS_COUNT`, standing for
`gen_range(0..TETRAS_COUNT)`) and a cursor `ctr`. -/
structure RandomTetras where
  seq : Nat → Nat
  ctr : Nat

/-- Embeds `RandomTetras::finite_iter` — draw 19 catalog indices. -/
def RandomTetras.finite_iter (r : RandomTetras) : List Tetra × RandomTetras :=
  ((List.range TETRAS_COUNT).map fun i =>
      TETRAS.getD (r.seq (r.ctr + i) % TETRAS_COUNT) defaultTetra,
    { r with ctr := r.ctr + TETRAS_COUNT })

/-- Embeds `algorithm::Cell` (also `main.rs::brute_force::Cell`). -/
inductive Cell where
  | Empty
  | Unavailable
  | Occupied
deriving DecidableEq, Repr

/-- Embeds `matches!(…, Cell::Empty)`. -/
def Cell.isEmpty : Cell → Bool
  | .Empty => true
  | _ => false

/-- The `grid::Grid<Cell>` value: row-major cell list of length
`rows * cols`. -/
structure GridC where
  rows : Nat
  cols : Nat
  cells : List Cell
deriving DecidableEq, Repr

/-- Embeds `Grid::init(rows, cols, Cell::Empty)`. -/
def GridC.init (rows cols : Nat) : GridC :=
  { rows := rows, cols := cols, cells := List.replicate (rows * cols) Cell.Empty }

/-- Embeds `util::SizeOf for Grid` (`grid.size_of()`). -/
def GridC.size_of (g : GridC) : Size :=
  { rows := g.rows, cols := g.cols }

/-- Reading `grid[row][col]` / `grid.pos(&pos)`.  The Rust read panics out
of bounds; in the engine it is only reached on validated cells, and this
total version returns `Unavailable` (never `Empty`) out of bounds so an
out-of-bounds candidate can never be reported free. -/
def GridC.cellAt (g : GridC) (p : Pos) : Cell :=
  if p.row < g.rows && p.col < g.cols then
    g.cells.getD (p.row * g.cols + p.col) Cell.Unavailable
  else Cell.Unavailable

/-- Writing `grid[row][col] = c`.  `none` models the Rust index panic on an
out-of-bounds position. -/
def GridC.setCellE (g : GridC) (p : Pos) (c : Cell) : Option GridC :=
  if p.row < g.rows && p.col < g.cols then
    some { g with cells := g.cells.set (p.row * g.cols + p.col) c }
  else none

/-- Count of cells equal to `c` in the grid. -/
def GridC.countCell (g : GridC) (c : Cell) : Nat :=
  g.cells.count c

/-- Embeds `algorithm::Configuration`.  The `HashSet<Pos>` of unavailable cells is
embedded as the list in iteration order (theorems that count cells assume it
duplicate-free, as a `HashSet` is); `results_limit: Option<NonZeroUsize>`
keeps the positivity as a side condition where needed. -/
structure Configuration where
  size : Size
  unavailable : List Pos
  results_limit : Option Nat
deriving Repr

/-- Embeds `Configuration::new` — no validation happens here. -/
def Configuration.new (size : Size) (unavailable : List Pos) : Configuration :=
  { size := size, unavailable := unavailable, results_limit := none }

/-- Embeds `Configuration::with_results_limit`. -/
def Configuration.with_results_limit (c : Configuration) (value : Nat) : Configuration :=
  { c with results_limit := some value }

/-- Embeds `algorithm::PlacementResult`. -/
structure PlacementResult where
  placement : List PlacedTetraInBoundaries
  free : Nat
deriving DecidableEq, Repr

/-- Embeds `algorithm::RecursionState` (stats sink embedded as two counters; the
placement stack is a cons-list whose head is the Rust `Vec`'s top). -/
structure RecursionState where
  grid : GridC
  how_many_free : Nat
  stack : List PlacedTetraInBoundaries
  results : List PlacementResult
  positions_for_lookup : List Pos
  initially_unavailable : Nat
  stats_recursions : Nat
  stats_results : Nat
  results_limit : Option Nat
  acceptance_threshold : Nat
  random_tetras : RandomTetras

/-- Embeds `algorithm::RecursionResult`. -/
inductive RecursionResult where
  | Continue
  | Halt
deriving DecidableEq, Repr

/-- Embeds `algorithm::CACHE_EACH_TETRAS`. -/
def CACHE_EACH_TETRAS : Nat := 4

/-- Largest `j ≤ k` with `j * j ≤ n` (`0` when there is none): the
countdown loop computing an integer square root by trial.  Structurally
recursive so that concrete runs reduce inside the kernel; proved equal to
`Nat.sqrt` below. -/
def isqrtGo : Nat → Nat → Nat
  | 0, _ => 0
  | k + 1, n => if (k + 1) * (k + 1) ≤ n then k + 1 else isqrtGo k n

/-- Embeds `⌊√n⌋`, embedding the source's
`(x as f64).powf(0.5).floor() as usize` (exact on the small values
involved); equal to `Nat.sqrt` (theorem `isqrt_eq_sqrt`). -/
def isqrt (n : Nat) : Nat := isqrtGo n n

/-- Marking the unavailable cells in `RecursionState::with_configuration`:
`grid[*row][*col] = Cell::Unavailable; initially_unavailable += 1;
how_many_free -= 1;` folded over the set's iteration order.  `none` models
the Rust index panic on an out-of-bounds position. -/
def markUnavailable :
    List Pos → GridC × Nat × Nat → Option (GridC × Nat × Nat)
  | [], acc => some acc
  | p :: rest, (g, iu, free) =>
    match g.setCellE p Cell.Unavailable with
    | none => none
    | some g' => markUnavailable rest (g', iu + 1, free - 1)

/-- The initial candidate cache in `with_configuration`: every position
whose cell is `Empty`, in row-major order. -/
def initialLookup (g : GridC) : List Pos :=
  (List.range g.rows).flatMap fun row =>
    (List.range g.cols).filterMap fun col =>
      if (g.cellAt { row := row, col := col }).isEmpty then
        some { row := row, col := col }
      else none

/-- Embeds `RecursionState::with_configuration` (fallible: `none` is the panic on
an out-of-bounds unavailable position).  `acceptance_threshold` embeds
`((how_many_free - min_free_cells) as f64).powf(0.5).floor() as usize`
as `Nat.sqrt`. -/
def with_configuration (cfg : Configuration) (seq : Nat → Nat) :
    Option RecursionState :=
  let rows := cfg.size.rows
  let cols := cfg.size.cols
  match markUnavailable cfg.unavailable (GridC.init rows cols, 0, rows * cols) with
  | none => none
  | some (grid, initially_unavailable, how_many_free) =>
    let min_free_cells := (cols * rows - initially_unavailable) % 4
    let acceptance_threshold := isqrt (how_many_free - min_free_cells)
    some
      { grid := grid
        how_many_free := how_many_free
        stack := []
        results := []
        positions_for_lookup := initialLookup grid
        initially_unavailable := initially_unavailable
        stats_recursions := 0
        stats_results := 0
        results_limit := cfg.results_limit
        acceptance_threshold := acceptance_threshold
        random_tetras := { seq := seq, ctr := 0 } }

/-- The shared body of `find_any_fit_for` (identical in `algorithm.rs` and
`main.rs::brute_force`): first position in cache order whose placement is in
boundaries and covers only `Empty` cells. -/
def find_any_fit_core (positions : List Pos) (g : GridC) (tetra : Tetra) :
    Option PlacedTetraInBoundaries :=
  ((positions.map fun pos =>
      PlacedTetraInBoundaries.in_boundaries
        { tetra := tetra, position := pos } g.size_of).find? fun ib =>
        match ib with
        | some ib =>
          ib.iter_relative_to_place.all fun pos => (g.cellAt pos).isEmpty
        | none => false).join

/-- Embeds `RecursionState::find_any_fit_for`. -/
def RecursionState.find_any_fit_for (s : RecursionState) (tetra : Tetra) :
    Option PlacedTetraInBoundaries :=
  find_any_fit_core s.positions_for_lookup s.grid tetra

/-- The grid walk of `update_lookup_cache`, iterating the cells row-major
with a running index (the grid's cell list has length `rows * cols`, so the
index `i` visits exactly the Rust loop's `(row, col) = (i / cols, i % cols)`
pairs): re-admit every `Empty` cell, skip the first `excluded` `Occupied`
cells, re-admit the remaining `Occupied` cells, ignore `Unavailable`. -/
def rebuildLookup (cols : Nat) : Nat → List Cell → Nat → List Pos
  | _, [], _ => []
  | i, c :: rest, excluded =>
    match c with
    | Cell.Empty =>
      { row := i / cols, col := i % cols } :: rebuildLookup cols (i + 1) rest excluded
    | Cell.Occupied =>
      if excluded > 0 then rebuildLookup cols (i + 1) rest (excluded - 1)
      else { row := i / cols, col := i % cols } :: rebuildLookup cols (i + 1) rest excluded
    | Cell.Unavailable => rebuildLookup cols (i + 1) rest excluded

/-- Embeds `RecursionState::update_lookup_cache`.  The branch condition compares
`stacked` with `cached` exactly as the source does (the `||` short-circuit
keeps `stacked - cached` unevaluated when `stacked < cached`, so the `Nat`
truncated subtraction agrees with `usize`). -/
def RecursionState.update_lookup_cache (s : RecursionState) : RecursionState :=
  let stacked := s.stack.length
  let cached := (s.grid.cols * s.grid.rows - s.initially_unavailable)
    - s.positions_for_lookup.length
  let how_many_exclude : Option Nat :=
    if stacked < cached || CACHE_EACH_TETRAS ≤ stacked - cached then
      some ((stacked - stacked % CACHE_EACH_TETRAS) * 4)
    else
      none
  match how_many_exclude with
  | none => s
  | some excluded =>
    { s with positions_for_lookup := rebuildLookup s.grid.cols 0 s.grid.cells excluded }

/-- Occupying the four cells of a placement (`fill_and_push`'s loop):
each covered cell is set `Occupied` and the free counter decremented. -/
def fillCells : List Pos → GridC → Nat → Option (GridC × Nat)
  | [], g, free => some (g, free)
  | p :: rest, g, free =>
    match g.setCellE p Cell.Occupied with
    | none => none
    | some g' => fillCells rest g' (free - 1)

/-- Clearing the four cells of a placement (`pop_and_clear`'s loop). -/
def unfillCells : List Pos → GridC → Nat → Option (GridC × Nat)
  | [], g, free => some (g, free)
  | p :: rest, g, free =>
    match g.setCellE p Cell.Empty with
    | none => none
    | some g' => unfillCells rest g' (free + 1)

/-- Embeds `RecursionState::fill_and_push`. -/
def RecursionState.fill_and_push (s : RecursionState) (tetra : PlacedTetraInBoundaries) :
    Option RecursionState :=
  match fillCells tetra.iter_relative_to_place s.grid s.how_many_free with
  | none => none
  | some (g, free) =>
    some (RecursionState.update_lookup_cache
      { s with grid := g, how_many_free := free, stack := tetra :: s.stack })

/-- Embeds `RecursionState::pop_and_clear` (`none` models the `unwrap` panic on an
empty stack). -/
def RecursionState.pop_and_clear (s : RecursionState) : Option RecursionState :=
  match s.stack with
  | [] => none
  | placed_tetra :: rest =>
    match unfillCells placed_tetra.iter_relative_to_place s.grid s.how_many_free with
    | none => none
    | some (g, free) =>
      some (RecursionState.update_lookup_cache
        { s with grid := g, how_many_free := free, stack := rest })

/-- The tail of `RecursionState::recursion` (lines 171–185 of
`algorithm.rs`): record a `PlacementResult` — with the literal `free: 0` of
the source — when no shape fit and the free count is under the acceptance
threshold, then signal `Halt` when a configured results limit has just been
reached. -/
def recordResult (s : RecursionState) (was_any_fit : Bool) :
    RecursionState × RecursionResult :=
  if !was_any_fit && s.how_many_free < s.acceptance_threshold then
    let s := { s with
      results := s.results ++ [({ placement := s.stack, free := 0 } : PlacementResult)],
      stats_results := s.stats_results + 1 }
    match s.results_limit with
    | some limit =>
      if s.results.length = limit then (s, RecursionResult.Halt)
      else (s, RecursionResult.Continue)
    | none => (s, RecursionResult.Continue)
  else (s, RecursionResult.Continue)

/-- The `for tetra in …` loop inside `RecursionState::recursion`: on a fit,
fill and push, recurse through `recur` (returning `Halt` immediately when
the recursive call does, without trying further shapes), otherwise pop and
continue with the next shape.  The `Bool` accumulates `was_any_fit`;
`recur` is the recursion at the next depth (tied by `recursion` below). -/
def shapeLoop (recur : RecursionState → Option (RecursionState × RecursionResult)) :
    List Tetra → RecursionState → Bool →
    Option (RecursionState × Bool × RecursionResult)
  | [], s, was_any_fit => some (s, was_any_fit, RecursionResult.Continue)
  | tetra :: rest, s, was_any_fit =>
    match s.find_any_fit_for tetra with
    | none => shapeLoop recur rest s was_any_fit
    | some tetra_in_boundaries =>
      match s.fill_and_push tetra_in_boundaries with
      | none => none
      | some s1 =>
        match recur s1 with
        | none => none
        | some (s2, RecursionResult.Halt) => some (s2, true, RecursionResult.Halt)
        | some (s2, RecursionResult.Continue) =>
          match s2.pop_and_clear with
          | none => none
          | some s3 => shapeLoop recur rest s3 true

/-- Embeds `RecursionState::recursion` with explicit fuel (`none` = fuel exhausted
or a panic in a grid operation). -/
def recursion : Nat → RecursionState → Option (RecursionState × RecursionResult)
  | 0, _ => none
  | fuel + 1, s =>
    let s := { s with stats_recursions := s.stats_recursions + 1 }
    let drawn := s.random_tetras.finite_iter
    let s := { s with random_tetras := drawn.2 }
    match shapeLoop (recursion fuel) drawn.1 s false with
    | none => none
    | some (s1, _, RecursionResult.Halt) => some (s1, RecursionResult.Halt)
    | some (s1, was_any_fit, RecursionResult.Continue) =>
      some (recordResult s1 was_any_fit)

/-- Embeds `RecursionState::run` / `Configuration::run`, returning the final state
and the recursion's verdict. -/
def runFull (cfg : Configuration) (seq : Nat → Nat) (fuel : Nat) :
    Option (RecursionState × RecursionResult) :=
  match with_configuration cfg seq with
  | none => none
  | some s => recursion fuel s

/-- The result collection `Configuration::run` hands back. -/
def runResults (cfg : Configuration) (seq : Nat → Nat) (fuel : Nat) :
    Option (List PlacementResult) :=
  (runFull cfg seq fuel).map fun x => x.1.results

/-! ### The fill/unfill operation language for the cache invariant

The engine only ever mutates the grid through `fill_and_push` with a
placement obtained from `find_any_fit_for` (so: a catalog shape, validated
against the grid bounds, covering only `Empty` cells) and through
`pop_and_clear` of the top of the stack.  `EngineOp` captures exactly these
two operations; `validFill` is the guard `find_any_fit_for` establishes. -/

/-- The discipline under which the engine issues a fill: a catalog shape,
in boundaries for this grid, all four covered cells currently `Empty`. -/
def validFill (s : RecursionState) (t : PlacedTetraInBoundaries) : Bool :=
  decide (t.val.tetra ∈ TETRAS)
    && decide (PlacedTetraInBoundaries.in_boundaries t.val s.grid.size_of = some t)
    && t.iter_relative_to_place.all fun p => (s.grid.cellAt p).isEmpty

/-- A fill or unfill step as issued by the engine. -/
inductive EngineOp where
  | fill (t : PlacedTetraInBoundaries)
  | unfill

/-- One engine-issued step (`none` when the discipline is violated or the
underlying operation panics). -/
def applyOp (s : RecursionState) : EngineOp → Option RecursionState
  | EngineOp.fill t => if validFill s t then s.fill_and_push t else none
  | EngineOp.unfill => s.pop_and_clear

/-- A finite sequence of engine-issued steps. -/
def applyOps : List EngineOp → RecursionState → Option RecursionState
  | [], s => some s
  | op :: rest, s =>
    match applyOp s op with
    | none => none
    | some s' => applyOps rest s'

/-! ### `main.rs`, module `brute_force` — the exhaustive engine

Same shape catalog (`main.rs::tetro` is byte-for-byte the catalog of
`tetra.rs`, names aside), but: the candidate list is *all* positions
(including unavailable ones) and is never updated; shapes are tried in
catalog order; a node is accepted on entry when the free count equals the
minimum remainder; and the `self.results.push(…)` statement in
`recursion` (main.rs lines 413–416) is commented out in the source, so only
the stats counter moves. -/

/-- Embeds `main.rs::brute_force::RecursionState`. -/
structure BfState where
  grid : GridC
  how_many_free : Nat
  min_free_cells : Nat
  stack : List PlacedTetraInBoundaries
  results : List PlacementResult
  positions_for_lookup : List Pos
  stats_recursions : Nat
  stats_results : Nat
deriving Repr

/-- All positions in row-major order (`brute_force::RecursionState::new`
initialises the lookup list to every position, unavailable ones included). -/
def allPositions (rows cols : Nat) : List Pos :=
  (List.range rows).flatMap fun row =>
    (List.range cols).map fun col => { row := row, col := col }

/-- Embeds `brute_force::RecursionState::new` (fallible like `with_configuration`:
`none` is the index panic on an out-of-bounds unavailable position). -/
def bfNew (size : Size) (unavailable : List Pos) : Option BfState :=
  let rows := size.rows
  let cols := size.cols
  match markUnavailable unavailable (GridC.init rows cols, 0, rows * cols) with
  | none => none
  | some (grid, initially_unavailable, how_many_free) =>
    some
      { grid := grid
        how_many_free := how_many_free
        min_free_cells := (cols * rows - initially_unavailable) % 4
        stack := []
        results := []
        positions_for_lookup := allPositions rows cols
        stats_recursions := 0
        stats_results := 0 }

/-- Embeds `brute_force::RecursionState::fill_and_push` (no cache update here). -/
def BfState.fill_and_push (s : BfState) (tetra : PlacedTetraInBoundaries) :
    Option BfState :=
  match fillCells tetra.iter_relative_to_place s.grid s.how_many_free with
  | none => none
  | some (g, free) =>
    some { s with grid := g, how_many_free := free, stack := tetra :: s.stack }

/-- Embeds `brute_force::RecursionState::pop_and_clear`. -/
def BfState.pop_and_clear (s : BfState) : Option BfState :=
  match s.stack with
  | [] => none
  | placed_tetra :: rest =>
    match unfillCells placed_tetra.iter_relative_to_place s.grid s.how_many_free with
    | none => none
    | some (g, free) =>
      some { s with grid := g, how_many_free := free, stack := rest }

/-- The `for tetro in static_tetros_iter()` loop of
`brute_force::RecursionState::recursion`; `recur` is the recursion at the
next depth (tied by `bfRecursion` below). -/
def bfLoop (recur : BfState → Option BfState) : List Tetra → BfState → Option BfState
  | [], s => some s
  | tetra :: rest, s =>
    match find_any_fit_core s.positions_for_lookup s.grid tetra with
    | none => bfLoop recur rest s
    | some tetra_in_boundaries =>
      match s.fill_and_push tetra_in_boundaries with
      | none => none
      | some s1 =>
        match recur s1 with
        | none => none
        | some s2 =>
          match s2.pop_and_clear with
          | none => none
          | some s3 => bfLoop recur rest s3

/-- Embeds `brute_force::RecursionState::recursion`.  On entry, when
`how_many_free == min_free_cells`, the source only runs
`self.stats.results_inc()` — the `self.results.push(PlacementResult { … })`
right before it is commented out — and then tries every catalog shape in
order. -/
def bfRecursion : Nat → BfState → Option BfState
  | 0, _ => none
  | fuel + 1, s =>
    let s := { s with stats_recursions := s.stats_recursions + 1 }
    let s :=
      if s.how_many_free = s.min_free_cells then
        { s with stats_results := s.stats_results + 1 }
      else s
    bfLoop (bfRecursion fuel) TETRAS s

/-- Embeds `brute_force::Configuration::brute_force` — run the exhaustive search
and return the final state. -/
def brute_force (size : Size) (unavailable : List Pos) (fuel : Nat) :
    Option BfState :=
  match bfNew size unavailable with
  | none => none
  | some s => bfRecursion fuel s

/-! ### `parse_field.rs` — the external text format reader -/

/-- Embeds `parse_field::ParseError` (a `SourceSpan` is an (offset, length) pair);
`EmptyInput` is the anonymous `miette!("Empty input")` report for an input
with no lines at all. -/
inductive ParseError where
  | UnexpectedCharacter (loc : Nat × Nat) (char_busy : Char) (char_empty : Char)
  | FickleRowLength (reference_row : Nat × Nat) (bad_row : Nat × Nat)
      (len_reference : Nat) (len_actual : Nat)
  | NotEnoughRows (all_rows_span : Nat × Nat)
  | NotEnoughColumns (short_row_span : Nat × Nat)
  | EmptyInput
deriving DecidableEq, Repr

/-- Embeds `parse_field::ParsedField` (the `HashSet` is the insertion-ordered list;
its members are pairwise distinct by construction). -/
structure ParsedField where
  size : Size
  unavailable : List Pos
deriving DecidableEq, Repr

/-- Embeds `str::split_inclusive('\n')`: chunks of the input, each keeping its
trailing newline; no empty trailing chunk. -/
def splitInclusiveNl : List Char → List (List Char)
  | [] => []
  | c :: rest =>
    if c = '\n' then [c] :: splitInclusiveNl rest
    else
      match splitInclusiveNl rest with
      | [] => [[c]]
      | l :: ls => (c :: l) :: ls

/-- The `strip_n_r` helper of `lines_with_offsets`: strip one trailing
`'\n'`, and only then one trailing `'\r'` (a line with no trailing newline
keeps a trailing carriage return, as in the source). -/
def stripNR (l : List Char) : List Char :=
  match l.getLast? with
  | none => l
  | some c =>
    if c = '\n' then
      let l' := l.dropLast
      match l'.getLast? with
      | none => l'
      | some c' => if c' = '\r' then l'.dropLast else l'
    else l

/-- Offset bookkeeping of `iter_str_offsets`: each stripped line paired with
the byte offset of its chunk in the input. -/
def linesGo (off : Nat) : List (List Char) → List (Nat × List Char)
  | [] => []
  | chunk :: rest => (off, stripNR chunk) :: linesGo (off + chunk.length) rest

/-- Embeds `iter_str_offsets::lines_with_offsets`. -/
def lines_with_offsets (source : List Char) : List (Nat × List Char) :=
  linesGo 0 (splitInclusiveNl source)

/-- The inner character loop of `parse_without_source_code`: the first
character that is neither glyph yields `UnexpectedCharacter` at
`(offset + col, 1)`; busy glyphs are collected as unavailable positions. -/
def parseRow (char_empty char_busy : Char) (row offset : Nat) :
    Nat → List Char → Except ParseError (List Pos)
  | _, [] => Except.ok []
  | col, ch :: rest =>
    if ch = char_busy then
      match parseRow char_empty char_busy row offset (col + 1) rest with
      | Except.error e => Except.error e
      | Except.ok ps => Except.ok ({ row := row, col := col } :: ps)
    else if ch = char_empty then
      parseRow char_empty char_busy row offset (col + 1) rest
    else
      Except.error (ParseError.UnexpectedCharacter (offset + col, 1) char_busy char_empty)

/-- The row loop of `parse_without_source_code`, carrying `(cols, rows,
unavailable)` exactly as the source's mutable state. -/
def parseLines (char_empty char_busy : Char) :
    List (Nat × List Char) → Nat → Nat → Nat → List Pos →
    Except ParseError (Nat × Nat × List Pos)
  | [], _, cols, rows, unavailable => Except.ok (cols, rows, unavailable)
  | (offset, line) :: rest, row, cols, rows, unavailable =>
    let line_len := line.length
    if cols = 0 then
      if line_len < 2 then
        Except.error (ParseError.NotEnoughColumns (offset, line.length))
      else
        match parseRow char_empty char_busy row offset 0 line with
        | Except.error e => Except.error e
        | Except.ok ps =>
          parseLines char_empty char_busy rest (row + 1) line_len (rows + 1)
            (unavailable ++ ps)
    else if line_len ≠ cols then
      Except.error (ParseError.FickleRowLength (0, cols) (offset, line_len) cols line_len)
    else
      match parseRow char_empty char_busy row offset 0 line with
      | Except.error e => Except.error e
      | Except.ok ps =>
        parseLines char_empty char_busy rest (row + 1) cols (rows + 1)
          (unavailable ++ ps)

/-- Embeds `Parser::parse_without_source_code`. -/
def parse_without_source_code (char_empty char_busy : Char) (source : List Char) :
    Except ParseError ParsedField :=
  match parseLines char_empty char_busy (lines_with_offsets source) 0 0 0 [] with
  | Except.error e => Except.error e
  | Except.ok (cols, rows, unavailable) =>
    if rows = 0 then Except.error ParseError.EmptyInput
    else if rows < 2 then
      Except.error (ParseError.NotEnoughRows (0, source.length))
    else
      Except.ok { size := { rows := rows, cols := cols }, unavailable := unavailable }

/-- Spec-side (C9) well-formedness of the stripped input lines, following
the spec's wording for comparison with the parser: at least two rows, the
first row at least two characters long, homogeneous row lengths, and only
the two configured glyphs. -/
def specValid (char_empty char_busy : Char) (lines : List (List Char)) : Prop :=
  2 ≤ lines.length ∧ 2 ≤ (lines.headD []).length ∧
  (∀ l ∈ lines, l.length = (lines.headD []).length) ∧
  (∀ l ∈ lines, ∀ ch ∈ l, ch = char_empty ∨ ch = char_busy)

/-- Spec-side (C9) busy-glyph positions of one row, in column order. -/
def specBusyRow (char_busy : Char) (row : Nat) : Nat → List Char → List Pos
  | _, [] => []
  | col, ch :: rest =>
    if ch = char_busy then
      { row := row, col := col } :: specBusyRow char_busy row (col + 1) rest
    else specBusyRow char_busy row (col + 1) rest

/-- Spec-side (C9) busy-glyph positions of the whole field, row-major. -/
def specBusyLines (char_busy : Char) : Nat → List (List Char) → List Pos
  | _, [] => []
  | row, l :: rest =>
    specBusyRow char_busy row 0 l ++ specBusyLines char_busy (row + 1) rest

/-! ### Concrete inputs used by witnesses and counterexamples -/

/-- The identity index supply: node `k` draws the rotated catalog order
`k·19 % 19, …` — a legitimate value stream for `gen_range(0..19)`. -/
def seqId : Nat → Nat := fun n => n

/-- Empty 4×4 configuration. -/
def cfg4x4 : Configuration := Configuration.new { rows := 4, cols := 4 } []

/-- The 6×6 configuration with the 2×2 blocked square. -/
def cfg6x6 : Configuration :=
  Configuration.new { rows := 6, cols := 6 }
    [ { row := 0, col := 0 }, { row := 0, col := 1 },
      { row := 1, col := 0 }, { row := 1, col := 1 } ]

/-- Empty 5×5 configuration capped at one result. -/
def cfg5x5cap1 : Configuration :=
  (Configuration.new { rows := 5, cols := 5 } []).with_results_limit 1

/-- Empty 4×4 configuration capped at one result. -/
def cfg4x4cap1 : Configuration :=
  (Configuration.new { rows := 4, cols := 4 } []).with_results_limit 1

/-- A configuration whose blocked position (5,5) lies outside its 2×2
grid. -/
def cfgOutOfBounds : Configuration :=
  Configuration.new { rows := 2, cols := 2 } [ { row := 5, col := 5 } ]

/-- A zero-area configuration. -/
def cfgZeroArea : Configuration := Configuration.new { rows := 0, cols := 0 } []

/-- A placement is engine-validated for given bounds when its shape comes
from the catalog and `in_boundaries` confirmed it (returning the very same
wrapper). -/
def ValidatedFor (t : PlacedTetraInBoundaries) (bounds : Size) : Prop :=
  t.val.tetra ∈ TETRAS ∧
    PlacedTetraInBoundaries.in_boundaries t.val bounds = some t

/-- The O-square of the catalog placed at the origin (witness material). -/
def sq00 : PlacedTetraInBoundaries :=
  { val := { tetra := TETRAS.getD 0 defaultTetra, position := { row := 0, col := 0 } } }

/-- Empty 2×2 configuration (witness material). -/
def cfg2x2 : Configuration := Configuration.new { rows := 2, cols := 2 } []

/-- The freshly constructed engine state for the empty 2×2 grid (witness
material). -/
def state2x2 : RecursionState :=
  (with_configuration cfg2x2 seqId).get (by decide)

/-- Final state of the exhaustive engine on an empty 1×1 grid (witness
material). -/
def bf1x1 : BfState :=
  (brute_force { rows := 1, cols := 1 } [] 3).get (by decide)

/-- Outcome of the capped 4×4 run under the identity supply (witness
material). -/
def run4x4cap1 : RecursionState × RecursionResult :=
  (runFull cfg4x4cap1 seqId 30).get (by decide)

/-- Outcome of the capped 5×5 run under the identity supply (witness and
counterexample material). -/
def run5x5 : RecursionState × RecursionResult :=
  (runFull cfg5x5cap1 seqId 30).get (by decide)

/-- The grid-state invariant the engine maintains relative to its
configuration: honest dimensions and counters, a placement stack of
validated, currently occupying, pairwise disjoint placements, and blocked
cells exactly at the configured positions. -/
def GInv (cfg : Configuration) (s : RecursionState) : Prop :=
  s.grid.rows = cfg.size.rows ∧
  s.grid.cols = cfg.size.cols ∧
  s.grid.cells.length = s.grid.rows * s.grid.cols ∧
  s.how_many_free = s.grid.countCell Cell.Empty ∧
  s.grid.countCell Cell.Occupied = 4 * s.stack.length ∧
  s.grid.countCell Cell.Unavailable = cfg.unavailable.length ∧
  s.initially_unavailable = cfg.unavailable.length ∧
  (∀ p : Pos, p.row < s.grid.rows → p.col < s.grid.cols →
    (s.grid.cellAt p = Cell.Unavailable ↔ p ∈ cfg.unavailable)) ∧
  (∀ t ∈ s.stack, ValidatedFor t s.grid.size_of ∧
    ∀ p ∈ t.iter_relative_to_place, s.grid.cellAt p = Cell.Occupied) ∧
  s.stack.Pairwise (fun a b => ∀ x ∈ a.iter_relative_to_place,
    x ∉ b.iter_relative_to_place)

/-- What C2 (amended) asserts of every returned `PlacementResult`: the
recorded `free` field is the literal `0`; every placement is a validated
catalog placement whose four cells lie inside the grid and off the blocked
set; the placements cover pairwise disjoint cells; and the cells covered
(4 per placement) fit inside the usable area, so the cells left empty at
acceptance time number `rows·cols − blocked − 4·placements` — equal to the
recorded `free` field only for exact tilings. -/
def ResultOK (cfg : Configuration) (r : PlacementResult) : Prop :=
  r.free = 0 ∧
  (∀ t ∈ r.placement, ValidatedFor t cfg.size ∧
    ∀ p ∈ t.iter_relative_to_place,
      p.row < cfg.size.rows ∧ p.col < cfg.size.cols ∧ p ∉ cfg.unavailable) ∧
  r.placement.Pairwise (fun a b => ∀ x ∈ a.iter_relative_to_place,
    x ∉ b.iter_relative_to_place) ∧
  4 * r.placement.length ≤ cfg.size.rows * cfg.size.cols - cfg.unavailable.length

/-- The candidate-cache invariant of C6 on top of `GInv`: the cache
contains every currently `Empty` position, and it is in one of two shapes —
either it holds every in-bounds non-blocked position (the fresh or
fully-rebuilt shape), or it came out of a rebuild that excluded exactly
`16·⌊stack/4⌋` occupied cells, pinning its size (possible only at stack
depth ≥ 4, which forces the next update to rebuild). -/
def CacheInv (cfg : Configuration) (s : RecursionState) : Prop :=
  GInv cfg s ∧
  (∀ p : Pos, s.grid.cellAt p = Cell.Empty → p ∈ s.positions_for_lookup) ∧
  ((∀ p : Pos, p.row < s.grid.rows → p.col < s.grid.cols →
      s.grid.cellAt p ≠ Cell.Unavailable → p ∈ s.positions_for_lookup) ∨
   (s.positions_for_lookup.length + 16 * (s.stack.length / 4) =
      s.grid.cols * s.grid.rows - s.initially_unavailable ∧
    4 ≤ s.stack.length))

/-- Empty 2×4 configuration (witness material). -/
def cfg2x4 : Configuration := Configuration.new { rows := 2, cols := 4 } []

/-- The freshly constructed engine state for the empty 2×4 grid (witness
material). -/
def st2x4 : RecursionState :=
  (with_configuration cfg2x4 seqId).get (by decide)

/-- The 2×4 state after one engine-issued fill of the O-square at the
origin (witness material). -/
def st2x4f : RecursionState :=
  (applyOps [EngineOp.fill sq00] st2x4).get (by decide)

/-! ## Theorems -/

/-- Facts holding for each of the 19 catalog shapes: exactly four offsets,
pairwise distinct, the derived bounding box bounds every offset, and the
column shift does not exceed the bounding width. -/
theorem catalog_ok : ∀ t ∈ TETRAS,
    t.positions.length = 4 ∧ t.positions.Nodup ∧ t.col_shift ≤ t.size.cols ∧
    ∀ p ∈ t.positions, p.row < t.size.rows ∧ p.col < t.size.cols := by
  decide

/-- Characterisation of the bounds check: `in_boundaries` succeeds exactly
on the three-part condition, and returns the input placement. -/
theorem in_boundaries_eq_some {placed : PlacedTetra} {bounds : Size}
    {ib : PlacedTetraInBoundaries} :
    PlacedTetraInBoundaries.in_boundaries placed bounds = some ib ↔
      (placed.tetra.col_shift ≤ placed.position.col ∧
       placed.position.col + placed.tetra.size.cols - placed.tetra.col_shift ≤ bounds.cols ∧
       placed.position.row + placed.tetra.size.rows ≤ bounds.rows ∧
       ib = { val := placed }) := by
  simp only [PlacedTetraInBoundaries.in_boundaries]
  split
  next h =>
    simp only [Bool.or_eq_true, decide_eq_true_eq] at h
    constructor
    · intro hc
      cases hc
    · rintro ⟨h1, h2, h3, rfl⟩
      rcases h with (h | h) | h <;> omega
  next h =>
    simp only [Bool.or_eq_true, decide_eq_true_eq, not_or, not_lt] at h
    obtain ⟨⟨h1, h2⟩, h3⟩ := h
    simp only [Option.some.injEq]
    constructor
    · intro hc
      exact ⟨h1, h2, h3, hc.symm⟩
    · rintro ⟨-, -, -, rfl⟩
      rfl

/-- Failure side of the bounds check. -/
theorem in_boundaries_eq_none {placed : PlacedTetra} {bounds : Size} :
    PlacedTetraInBoundaries.in_boundaries placed bounds = none ↔
      ¬(placed.tetra.col_shift ≤ placed.position.col ∧
        placed.position.col + placed.tetra.size.cols - placed.tetra.col_shift ≤ bounds.cols ∧
        placed.position.row + placed.tetra.size.rows ≤ bounds.rows) := by
  simp only [PlacedTetraInBoundaries.in_boundaries]
  split
  next h =>
    simp only [Bool.or_eq_true, decide_eq_true_eq] at h
    constructor
    · intro _ hc
      rcases h with (h | h) | h <;> omega
    · intro _
      rfl
  next h =>
    simp only [Bool.or_eq_true, decide_eq_true_eq, not_or, not_lt] at h
    obtain ⟨⟨h1, h2⟩, h3⟩ := h
    constructor
    · intro hc
      cases hc
    · intro hc
      exact absurd ⟨h1, h2, h3⟩ hc

/-- The four absolute cells of a placement validated for `bounds` lie
strictly inside `bounds`, and the column arithmetic never goes below the
shift (no `usize` underflow). -/
theorem cells_inbounds {t : PlacedTetraInBoundaries} {bounds : Size}
    (hv : ValidatedFor t bounds) :
    ∀ c ∈ t.iter_relative_to_place, c.row < bounds.rows ∧ c.col < bounds.cols := by
  obtain ⟨hcat, hib⟩ := hv
  obtain ⟨h1, h2, h3, -⟩ := in_boundaries_eq_some.mp hib
  intro c hc
  simp only [PlacedTetraInBoundaries.iter_relative_to_place, List.mem_map] at hc
  obtain ⟨p, hp, rfl⟩ := hc
  have hb := (catalog_ok _ hcat).2.2.2 p hp
  have hs := (catalog_ok _ hcat).2.2.1
  dsimp only [Pos.add]
  constructor
  · omega
  · omega

/-- A validated placement covers exactly four cells. -/
theorem cells_length {t : PlacedTetraInBoundaries} {bounds : Size}
    (hv : ValidatedFor t bounds) :
    t.iter_relative_to_place.length = 4 := by
  have := (catalog_ok _ hv.1).1
  simp only [PlacedTetraInBoundaries.iter_relative_to_place, List.length_map]
  exact this

/-- The four covered cells of a validated placement are pairwise distinct
(the anchor translation is injective because the anchor column dominates
the shift). -/
theorem cells_nodup {t : PlacedTetraInBoundaries} {bounds : Size}
    (hv : ValidatedFor t bounds) :
    t.iter_relative_to_place.Nodup := by
  obtain ⟨hcat, hib⟩ := hv
  obtain ⟨h1, -, -, -⟩ := in_boundaries_eq_some.mp hib
  have hnd := (catalog_ok _ hcat).2.1
  simp only [PlacedTetraInBoundaries.iter_relative_to_place]
  refine hnd.map_on ?_
  intro p hp q hq hpq
  have hbp := (catalog_ok _ hcat).2.2.2 p hp
  have hbq := (catalog_ok _ hcat).2.2.2 q hq
  cases p
  cases q
  dsimp only [Pos.add] at hpq
  simp only [Pos.mk.injEq] at hpq ⊢
  omega

/-- C5: the placement validator returns `Some` exactly when the anchor
column is at least the column shift, the shifted bounding box fits the grid
width, and the bounding height fits the grid height; it returns `None`
otherwise.  In particular an anchor column below the shift is always
rejected, and an anchor column equal to the shift is accepted whenever the
other two bounds hold. -/
theorem claim_C5 :
    (∀ (placed : PlacedTetra) (bounds : Size),
      (((PlacedTetraInBoundaries.in_boundaries placed bounds).isSome = true) ↔
        (placed.tetra.col_shift ≤ placed.position.col ∧
         placed.position.col + placed.tetra.size.cols - placed.tetra.col_shift ≤ bounds.cols ∧
         placed.position.row + placed.tetra.size.rows ≤ bounds.rows)) ∧
      (¬(placed.tetra.col_shift ≤ placed.position.col ∧
         placed.position.col + placed.tetra.size.cols - placed.tetra.col_shift ≤ bounds.cols ∧
         placed.position.row + placed.tetra.size.rows ≤ bounds.rows) →
        PlacedTetraInBoundaries.in_boundaries placed bounds = none)) ∧
    (∀ (t : Tetra) (anchor : Pos) (bounds : Size),
      anchor.col < t.col_shift →
      PlacedTetraInBoundaries.in_boundaries { tetra := t, position := anchor } bounds = none) ∧
    (∀ (t : Tetra) (anchor : Pos) (bounds : Size),
      anchor.col = t.col_shift →
      anchor.col + t.size.cols - t.col_shift ≤ bounds.cols →
      anchor.row + t.size.rows ≤ bounds.rows →
      (PlacedTetraInBoundaries.in_boundaries
        { tetra := t, position := anchor } bounds).isSome = true) := by
  have hsome : ∀ (placed : PlacedTetra) (bounds : Size),
      ((PlacedTetraInBoundaries.in_boundaries placed bounds).isSome = true) ↔
        (placed.tetra.col_shift ≤ placed.position.col ∧
         placed.position.col + placed.tetra.size.cols - placed.tetra.col_shift ≤ bounds.cols ∧
         placed.position.row + placed.tetra.size.rows ≤ bounds.rows) := by
    intro placed bounds
    rw [Option.isSome_iff_exists]
    constructor
    · rintro ⟨ib, hib⟩
      have := in_boundaries_eq_some.mp hib
      exact ⟨this.1, this.2.1, this.2.2.1⟩
    · intro h
      exact ⟨{ val := placed }, in_boundaries_eq_some.mpr ⟨h.1, h.2.1, h.2.2, rfl⟩⟩
  refine ⟨fun placed bounds => ⟨hsome placed bounds, ?_⟩, ?_, ?_⟩
  · intro h
    exact in_boundaries_eq_none.mpr h
  · intro t anchor bounds h
    apply in_boundaries_eq_none.mpr
    intro hc
    exact absurd hc.1 (Nat.not_le.mpr h)
  · intro t anchor bounds h1 h2 h3
    exact (hsome { tetra := t, position := anchor } bounds).mpr ⟨le_of_eq h1.symm, h2, h3⟩

/-- Witness for C5 at the left-looking T orientation (`col_shift = 1`):
rejected at anchor column 0, accepted at anchor column 1 in a 3×3 grid. -/
theorem claim_C5_witness :
    PlacedTetraInBoundaries.in_boundaries
      { tetra := T_LOOK_LEFT, position := { row := 0, col := 0 } }
      { rows := 3, cols := 3 } = none ∧
    (PlacedTetraInBoundaries.in_boundaries
      { tetra := T_LOOK_LEFT, position := { row := 0, col := 1 } }
      { rows := 3, cols := 3 }).isSome = true :=
  ⟨claim_C5.2.1 T_LOOK_LEFT { row := 0, col := 0 } { rows := 3, cols := 3 } (by decide),
   claim_C5.2.2 T_LOOK_LEFT { row := 0, col := 1 } { rows := 3, cols := 3 }
     (by decide) (by decide) (by decide)⟩

/-- Lower bound of `isqrtGo`: its square never exceeds `n`. -/
theorem isqrtGo_sq_le : ∀ k n : Nat, isqrtGo k n * isqrtGo k n ≤ n := by
  intro k
  induction k with
  | zero => intro n; simp [isqrtGo]
  | succ k ih =>
    intro n
    simp only [isqrtGo]
    split
    next h => exact h
    next h => exact ih n

/-- Maximality of `isqrtGo` below its countdown bound. -/
theorem isqrtGo_max : ∀ k n j : Nat, j ≤ k → j * j ≤ n → j ≤ isqrtGo k n := by
  intro k
  induction k with
  | zero => intro n j hj _; omega
  | succ k ih =>
    intro n j hj hsq
    simp only [isqrtGo]
    split
    next h => exact hj
    next h =>
      have hjk : j ≤ k := by
        rcases Nat.lt_or_ge j (k + 1) with hlt | hge
        · omega
        · exfalso
          have : (k + 1) * (k + 1) ≤ j * j := Nat.mul_le_mul hge hge
          omega
      exact ih n j hjk hsq

/-- The structural square root agrees with `Nat.sqrt`: both are `⌊√n⌋`. -/
theorem isqrt_eq_sqrt (n : Nat) : isqrt n = Nat.sqrt n := by
  refine Nat.le_antisymm ?_ ?_
  · exact Nat.le_sqrt.mpr (isqrtGo_sq_le n n)
  · exact isqrtGo_max n n (Nat.sqrt n) (Nat.sqrt_le_self n) (Nat.sqrt_le n)

/-- Index of an in-bounds position is inside the cell list. -/
theorem idx_lt {rows cols r c : Nat} (hr : r < rows) (hc : c < cols) :
    r * cols + c < rows * cols := by
  calc r * cols + c < r * cols + cols := by omega
  _ = (r + 1) * cols := by ring
  _ ≤ rows * cols := Nat.mul_le_mul_right cols hr

/-- Row-major indices of distinct in-bounds positions are distinct. -/
theorem idx_inj {cols r1 c1 r2 c2 : Nat} (hc1 : c1 < cols) (hc2 : c2 < cols)
    (h : r1 * cols + c1 = r2 * cols + c2) : r1 = r2 ∧ c1 = c2 := by
  have hpos : 0 < cols := Nat.lt_of_le_of_lt (Nat.zero_le _) hc1
  have e1 : (r1 * cols + c1) / cols = r1 := by
    rw [Nat.mul_comm, Nat.mul_add_div hpos, Nat.div_eq_of_lt hc1, Nat.add_zero]
  have e2 : (r2 * cols + c2) / cols = r2 := by
    rw [Nat.mul_comm, Nat.mul_add_div hpos, Nat.div_eq_of_lt hc2, Nat.add_zero]
  have hr : r1 = r2 := by rw [← e1, ← e2, h]
  subst hr
  exact ⟨rfl, by omega⟩

/-- Success characterisation of a single grid write. -/
theorem setCellE_eq_some {g g' : GridC} {p : Pos} {c : Cell} :
    g.setCellE p c = some g' ↔
      (p.row < g.rows ∧ p.col < g.cols ∧
        g' = { g with cells := g.cells.set (p.row * g.cols + p.col) c }) := by
  simp only [GridC.setCellE]
  split
  next h =>
    simp only [Bool.and_eq_true, decide_eq_true_eq] at h
    simp only [Option.some.injEq]
    constructor
    · intro hc
      exact ⟨h.1, h.2, hc.symm⟩
    · rintro ⟨-, -, rfl⟩
      rfl
  next h =>
    simp only [Bool.and_eq_true, decide_eq_true_eq, not_and, not_lt] at h
    constructor
    · intro hc
      cases hc
    · rintro ⟨h1, h2, -⟩
      exact absurd h2 (Nat.not_lt.mpr (h h1))

/-- A write on an in-bounds position succeeds. -/
theorem setCellE_isSome {g : GridC} {p : Pos} {c : Cell}
    (h1 : p.row < g.rows) (h2 : p.col < g.cols) :
    g.setCellE p c =
      some { g with cells := g.cells.set (p.row * g.cols + p.col) c } :=
  setCellE_eq_some.mpr ⟨h1, h2, rfl⟩

/-- Reading an in-bounds position goes through the cell list. -/
theorem cellAt_pos {g : GridC} {q : Pos} (h1 : q.row < g.rows) (h2 : q.col < g.cols) :
    g.cellAt q = g.cells.getD (q.row * g.cols + q.col) Cell.Unavailable := by
  simp [GridC.cellAt, h1, h2]

/-- Reading an out-of-bounds position yields the sentinel `Unavailable`. -/
theorem cellAt_neg {g : GridC} {q : Pos} (h : ¬(q.row < g.rows ∧ q.col < g.cols)) :
    g.cellAt q = Cell.Unavailable := by
  simp only [GridC.cellAt, Bool.and_eq_true, decide_eq_true_eq]
  rw [if_neg h]

/-- Reading after a write: the written position reads the written value,
every other position is unchanged. -/
theorem cellAt_set {g g' : GridC} {p : Pos} {c : Cell}
    (hlen : g.cells.length = g.rows * g.cols)
    (hset : g.setCellE p c = some g') :
    (∀ q, g'.cellAt q = if q = p then c else g.cellAt q) ∧
      g'.rows = g.rows ∧ g'.cols = g.cols ∧ g'.cells.length = g.cells.length := by
  obtain ⟨hr, hc, rfl⟩ := setCellE_eq_some.mp hset
  refine ⟨?_, rfl, rfl, List.length_set ..⟩
  intro q
  by_cases hq : q.row < g.rows ∧ q.col < g.cols
  · have hqlt : q.row * g.cols + q.col < g.cells.length := by
      rw [hlen]; exact idx_lt hq.1 hq.2
    have hplt : p.row * g.cols + p.col < g.cells.length := by
      rw [hlen]; exact idx_lt hr hc
    rw [cellAt_pos (g := { g with cells := g.cells.set (p.row * g.cols + p.col) c })
        hq.1 hq.2, cellAt_pos hq.1 hq.2]
    rw [List.getD_eq_getElem _ _ (by simpa using hqlt),
      List.getD_eq_getElem _ _ hqlt, List.getElem_set]
    by_cases hqp : q = p
    · subst hqp
      simp
    · have hne : ¬(p.row * g.cols + p.col = q.row * g.cols + q.col) := by
        intro hcontra
        obtain ⟨e1, e2⟩ := idx_inj hc hq.2 hcontra
        exact hqp (by cases p; cases q; simp_all)
      simp [hne, hqp]
  · have hqp : q ≠ p := by
      intro hcontra
      subst hcontra
      exact hq ⟨hr, hc⟩
    rw [cellAt_neg (g := { g with cells := g.cells.set (p.row * g.cols + p.col) c }) hq,
      if_neg hqp, cellAt_neg hq]

/-- Cell counts after a write. -/
theorem countCell_set {g g' : GridC} {p : Pos} {c : Cell}
    (hlen : g.cells.length = g.rows * g.cols)
    (hset : g.setCellE p c = some g') (c' : Cell) :
    g'.countCell c' = g.countCell c' - (if g.cellAt p = c' then 1 else 0)
      + (if c = c' then 1 else 0) := by
  obtain ⟨hr, hc, rfl⟩ := setCellE_eq_some.mp hset
  have hlt : p.row * g.cols + p.col < g.cells.length := by
    rw [hlen]; exact idx_lt hr hc
  simp only [GridC.countCell]
  rw [List.count_set _ _ _ _ hlt, cellAt_pos hr hc, List.getD_eq_getElem _ _ hlt]
  simp [beq_iff_eq]

/-- The value read at an in-bounds position occurs in the cell list, so its
count is positive. -/
theorem one_le_countCell {g : GridC} {p : Pos} {c : Cell}
    (hlen : g.cells.length = g.rows * g.cols)
    (hr : p.row < g.rows) (hc : p.col < g.cols) (hval : g.cellAt p = c) :
    1 ≤ g.countCell c := by
  have hlt : p.row * g.cols + p.col < g.cells.length := by
    rw [hlen]; exact idx_lt hr hc
  rw [cellAt_pos hr hc, List.getD_eq_getElem _ _ hlt] at hval
  exact List.count_pos_iff.mpr (hval ▸ List.getElem_mem hlt)

/-- The three cell counts partition the cell list. -/
theorem countCell_partition : ∀ l : List Cell,
    l.count Cell.Empty + l.count Cell.Unavailable + l.count Cell.Occupied = l.length := by
  intro l
  induction l with
  | nil => rfl
  | cons c rest ih =>
    cases c <;> simp [List.count_cons] <;> omega

/-- Grids with equal dimensions, full cell lists and equal reads are
equal. -/
theorem grid_ext {g g' : GridC} (hr : g'.rows = g.rows) (hc : g'.cols = g.cols)
    (hlen : g.cells.length = g.rows * g.cols)
    (hlen' : g'.cells.length = g'.rows * g'.cols)
    (h : ∀ q, g'.cellAt q = g.cellAt q) : g' = g := by
  obtain ⟨rows, cols, cells⟩ := g
  obtain ⟨rows2, cols2, cells2⟩ := g'
  dsimp only at *
  subst hr
  subst hc
  congr 1
  apply List.ext_getElem (by omega)
  intro n h1 h2
  have hcolpos : 0 < cols2 := by
    by_contra h0
    have hz : cols2 = 0 := by omega
    subst hz
    omega
  have hmul : n < cols2 * rows2 := by
    rw [Nat.mul_comm]
    omega
  have hnr : n / cols2 < rows2 := Nat.div_lt_of_lt_mul hmul
  have hnc : n % cols2 < cols2 := Nat.mod_lt _ hcolpos
  have hq := h { row := n / cols2, col := n % cols2 }
  rw [cellAt_pos (g := { rows := rows2, cols := cols2, cells := cells2 }) hnr hnc,
    cellAt_pos (g := { rows := rows2, cols := cols2, cells := cells }) hnr hnc] at hq
  dsimp only at hq
  rw [Nat.div_add_mod'] at hq
  rw [List.getD_eq_getElem _ _ (by omega), List.getD_eq_getElem _ _ (by omega)] at hq
  exact hq

/-- Filling a duplicate-free list of in-bounds, currently `Empty` cells:
full characterisation of the resulting grid and counters. -/
theorem fillCells_spec : ∀ (ps : List Pos) (g : GridC) (free : Nat),
    g.cells.length = g.rows * g.cols →
    ps.Nodup →
    (∀ p ∈ ps, p.row < g.rows ∧ p.col < g.cols ∧ g.cellAt p = Cell.Empty) →
    ∃ g', fillCells ps g free = some (g', free - ps.length) ∧
      g'.rows = g.rows ∧ g'.cols = g.cols ∧ g'.cells.length = g.cells.length ∧
      (∀ q, g'.cellAt q = if q ∈ ps then Cell.Occupied else g.cellAt q) ∧
      g'.countCell Cell.Empty + ps.length = g.countCell Cell.Empty ∧
      g'.countCell Cell.Occupied = g.countCell Cell.Occupied + ps.length ∧
      g'.countCell Cell.Unavailable = g.countCell Cell.Unavailable := by
  intro ps
  induction ps with
  | nil =>
    intro g free hlen _ _
    exact ⟨g, rfl, rfl, rfl, rfl, by simp, by simp, by simp, rfl⟩
  | cons p rest ih =>
    intro g free hlen hnd hall
    obtain ⟨hpr, hpc, hpe⟩ := hall p (List.mem_cons_self _ _)
    have hset := setCellE_isSome (c := Cell.Occupied) hpr hpc
    set g1 : GridC :=
      { g with cells := g.cells.set (p.row * g.cols + p.col) Cell.Occupied } with hg1
    obtain ⟨hat1, hr1, hc1, hlen1⟩ := cellAt_set hlen hset
    have hcnt1 := countCell_set hlen hset
    have hnd' := (List.nodup_cons.mp hnd)
    have hall1 : ∀ q ∈ rest, q.row < g1.rows ∧ q.col < g1.cols ∧
        g1.cellAt q = Cell.Empty := by
      intro q hq
      have := hall q (List.mem_cons_of_mem _ hq)
      refine ⟨by rw [hr1]; exact this.1, by rw [hc1]; exact this.2.1, ?_⟩
      rw [hat1 q, if_neg (by rintro rfl; exact hnd'.1 hq)]
      exact this.2.2
    obtain ⟨g', hfill, hr', hc', hlen', hat', hcE, hcO, hcU⟩ :=
      ih g1 (free - 1) (by rw [hlen1, hlen, hr1, hc1]) hnd'.2 hall1
    refine ⟨g', ?_, by rw [hr', hr1], by rw [hc', hc1], by rw [hlen', hlen1], ?_, ?_, ?_, ?_⟩
    · show fillCells (p :: rest) g free = _
      simp only [fillCells, hset, List.length_cons, hfill]
      have hfr : free - 1 - rest.length = free - (rest.length + 1) := by omega
      rw [hfr]
    · intro q
      rw [hat' q]
      by_cases hq : q ∈ rest
      · simp [hq]
      · rw [if_neg hq, hat1 q]
        by_cases hqp : q = p
        · subst hqp
          simp
        · simp [hqp, hq]
    · have h1 : 1 ≤ g.countCell Cell.Empty := one_le_countCell hlen hpr hpc hpe
      have : g1.countCell Cell.Empty = g.countCell Cell.Empty - 1 := by
        rw [hcnt1 Cell.Empty, hpe]
        simp
      simp only [List.length_cons]
      omega
    · have : g1.countCell Cell.Occupied = g.countCell Cell.Occupied + 1 := by
        rw [hcnt1 Cell.Occupied, hpe]
        simp
      simp only [List.length_cons]
      omega
    · rw [hcU]
      rw [hcnt1 Cell.Unavailable, hpe]
      simp

/-- Clearing a duplicate-free list of in-bounds, currently `Occupied`
cells: full characterisation. -/
theorem unfillCells_spec : ∀ (ps : List Pos) (g : GridC) (free : Nat),
    g.cells.length = g.rows * g.cols →
    ps.Nodup →
    (∀ p ∈ ps, p.row < g.rows ∧ p.col < g.cols ∧ g.cellAt p = Cell.Occupied) →
    ∃ g', unfillCells ps g free = some (g', free + ps.length) ∧
      g'.rows = g.rows ∧ g'.cols = g.cols ∧ g'.cells.length = g.cells.length ∧
      (∀ q, g'.cellAt q = if q ∈ ps then Cell.Empty else g.cellAt q) ∧
      g'.countCell Cell.Empty = g.countCell Cell.Empty + ps.length ∧
      g'.countCell Cell.Occupied + ps.length = g.countCell Cell.Occupied ∧
      g'.countCell Cell.Unavailable = g.countCell Cell.Unavailable := by
  intro ps
  induction ps with
  | nil =>
    intro g free hlen _ _
    exact ⟨g, rfl, rfl, rfl, rfl, by simp, by simp, by simp, rfl⟩
  | cons p rest ih =>
    intro g free hlen hnd hall
    obtain ⟨hpr, hpc, hpe⟩ := hall p (List.mem_cons_self _ _)
    have hset := setCellE_isSome (c := Cell.Empty) hpr hpc
    set g1 : GridC :=
      { g with cells := g.cells.set (p.row * g.cols + p.col) Cell.Empty } with hg1
    obtain ⟨hat1, hr1, hc1, hlen1⟩ := cellAt_set hlen hset
    have hcnt1 := countCell_set hlen hset
    have hnd' := (List.nodup_cons.mp hnd)
    have hall1 : ∀ q ∈ rest, q.row < g1.rows ∧ q.col < g1.cols ∧
        g1.cellAt q = Cell.Occupied := by
      intro q hq
      have := hall q (List.mem_cons_of_mem _ hq)
      refine ⟨by rw [hr1]; exact this.1, by rw [hc1]; exact this.2.1, ?_⟩
      rw [hat1 q, if_neg (by rintro rfl; exact hnd'.1 hq)]
      exact this.2.2
    obtain ⟨g', hfill, hr', hc', hlen', hat', hcE, hcO, hcU⟩ :=
      ih g1 (free + 1) (by rw [hlen1, hlen, hr1, hc1]) hnd'.2 hall1
    refine ⟨g', ?_, by rw [hr', hr1], by rw [hc', hc1], by rw [hlen', hlen1], ?_, ?_, ?_, ?_⟩
    · show unfillCells (p :: rest) g free = _
      simp only [unfillCells, hset, List.length_cons, hfill]
      have hfr : free + 1 + rest.length = free + (rest.length + 1) := by omega
      rw [hfr]
    · intro q
      rw [hat' q]
      by_cases hq : q ∈ rest
      · simp [hq]
      · rw [if_neg hq, hat1 q]
        by_cases hqp : q = p
        · subst hqp
          simp
        · simp [hqp, hq]
    · have : g1.countCell Cell.Empty = g.countCell Cell.Empty + 1 := by
        rw [hcnt1 Cell.Empty, hpe]
        simp
      simp only [List.length_cons]
      omega
    · have h1 : 1 ≤ g.countCell Cell.Occupied := one_le_countCell hlen hpr hpc hpe
      have : g1.countCell Cell.Occupied = g.countCell Cell.Occupied - 1 := by
        rw [hcnt1 Cell.Occupied, hpe]
        simp
      simp only [List.length_cons]
      omega
    · rw [hcU]
      rw [hcnt1 Cell.Unavailable, hpe]
      simp

/-- Marking a duplicate-free list of in-bounds, currently `Empty` cells as
unavailable, with the two counters of `with_configuration`'s loop. -/
theorem markUnavailable_spec : ∀ (ps : List Pos) (g : GridC) (iu free : Nat),
    g.cells.length = g.rows * g.cols →
    ps.Nodup →
    (∀ p ∈ ps, p.row < g.rows ∧ p.col < g.cols ∧ g.cellAt p = Cell.Empty) →
    ∃ g', markUnavailable ps (g, iu, free) = some (g', iu + ps.length, free - ps.length) ∧
      g'.rows = g.rows ∧ g'.cols = g.cols ∧ g'.cells.length = g.cells.length ∧
      (∀ q, g'.cellAt q = if q ∈ ps then Cell.Unavailable else g.cellAt q) ∧
      g'.countCell Cell.Empty + ps.length = g.countCell Cell.Empty ∧
      g'.countCell Cell.Occupied = g.countCell Cell.Occupied ∧
      g'.countCell Cell.Unavailable = g.countCell Cell.Unavailable + ps.length := by
  intro ps
  induction ps with
  | nil =>
    intro g iu free hlen _ _
    exact ⟨g, rfl, rfl, rfl, rfl, by simp, by simp, rfl, by simp⟩
  | cons p rest ih =>
    intro g iu free hlen hnd hall
    obtain ⟨hpr, hpc, hpe⟩ := hall p (List.mem_cons_self _ _)
    have hset := setCellE_isSome (c := Cell.Unavailable) hpr hpc
    set g1 : GridC :=
      { g with cells := g.cells.set (p.row * g.cols + p.col) Cell.Unavailable } with hg1
    obtain ⟨hat1, hr1, hc1, hlen1⟩ := cellAt_set hlen hset
    have hcnt1 := countCell_set hlen hset
    have hnd' := (List.nodup_cons.mp hnd)
    have hall1 : ∀ q ∈ rest, q.row < g1.rows ∧ q.col < g1.cols ∧
        g1.cellAt q = Cell.Empty := by
      intro q hq
      have := hall q (List.mem_cons_of_mem _ hq)
      refine ⟨by rw [hr1]; exact this.1, by rw [hc1]; exact this.2.1, ?_⟩
      rw [hat1 q, if_neg (by rintro rfl; exact hnd'.1 hq)]
      exact this.2.2
    obtain ⟨g', hfill, hr', hc', hlen', hat', hcE, hcO, hcU⟩ :=
      ih g1 (iu + 1) (free - 1) (by rw [hlen1, hlen, hr1, hc1]) hnd'.2 hall1
    refine ⟨g', ?_, by rw [hr', hr1], by rw [hc', hc1], by rw [hlen', hlen1], ?_, ?_, ?_, ?_⟩
    · show markUnavailable (p :: rest) (g, iu, free) = _
      simp only [markUnavailable, hset, List.length_cons, hfill]
      have h1 : iu + 1 + rest.length = iu + (rest.length + 1) := by omega
      have h2 : free - 1 - rest.length = free - (rest.length + 1) := by omega
      rw [h1, h2]
    · intro q
      rw [hat' q]
      by_cases hq : q ∈ rest
      · simp [hq]
      · rw [if_neg hq, hat1 q]
        by_cases hqp : q = p
        · subst hqp
          simp
        · simp [hqp, hq]
    · have h1 : 1 ≤ g.countCell Cell.Empty := one_le_countCell hlen hpr hpc hpe
      have : g1.countCell Cell.Empty = g.countCell Cell.Empty - 1 := by
        rw [hcnt1 Cell.Empty, hpe]
        simp
      simp only [List.length_cons]
      omega
    · rw [hcO, hcnt1 Cell.Occupied, hpe]
      simp
    · have : g1.countCell Cell.Unavailable = g.countCell Cell.Unavailable + 1 := by
        rw [hcnt1 Cell.Unavailable, hpe]
        simp
      simp only [List.length_cons]
      omega

/-- Distinct in-bounds positions all reading a non-`Unavailable` value `c`
force the count of `c` to be at least their number. -/
theorem count_ge_of_positions {c : Cell} (hcu : c ≠ Cell.Unavailable) :
    ∀ (ps : List Pos) (g : GridC),
    g.cells.length = g.rows * g.cols →
    ps.Nodup →
    (∀ p ∈ ps, p.row < g.rows ∧ p.col < g.cols ∧ g.cellAt p = c) →
    ps.length ≤ g.countCell c := by
  intro ps
  induction ps with
  | nil => intro g _ _ _; simp
  | cons p rest ih =>
    intro g hlen hnd hall
    obtain ⟨hpr, hpc, hpe⟩ := hall p (List.mem_cons_self _ _)
    have h1 : 1 ≤ g.countCell c := one_le_countCell hlen hpr hpc hpe
    have hset := setCellE_isSome (c := Cell.Unavailable) hpr hpc
    set g1 : GridC :=
      { g with cells := g.cells.set (p.row * g.cols + p.col) Cell.Unavailable } with hg1
    obtain ⟨hat1, hr1, hc1, hlen1⟩ := cellAt_set hlen hset
    have hcnt1 := countCell_set hlen hset
    have hnd' := (List.nodup_cons.mp hnd)
    have hrec : rest.length ≤ g1.countCell c := by
      apply ih g1 (by rw [hlen1, hlen, hr1, hc1]) hnd'.2
      intro q hq
      have := hall q (List.mem_cons_of_mem _ hq)
      refine ⟨by rw [hr1]; exact this.1, by rw [hc1]; exact this.2.1, ?_⟩
      rw [hat1 q, if_neg (by rintro rfl; exact hnd'.1 hq)]
      exact this.2.2
    have : g1.countCell c = g.countCell c - 1 := by
      rw [hcnt1 c, hpe]
      simp [Ne.symm hcu]
    simp only [List.length_cons]
    omega

/-- Writing any value to a list of in-bounds cells cannot panic. -/
theorem fillCells_isSome : ∀ (ps : List Pos) (g : GridC) (free : Nat),
    (∀ p ∈ ps, p.row < g.rows ∧ p.col < g.cols) →
    (fillCells ps g free).isSome = true := by
  intro ps
  induction ps with
  | nil => intro g free _; rfl
  | cons p rest ih =>
    intro g free hall
    obtain ⟨hpr, hpc⟩ := hall p (List.mem_cons_self _ _)
    have hset := setCellE_isSome (c := Cell.Occupied) hpr hpc
    simp only [fillCells, hset]
    apply ih
    intro q hq
    exact hall q (List.mem_cons_of_mem _ hq)

/-- Clearing a list of in-bounds cells cannot panic. -/
theorem unfillCells_isSome : ∀ (ps : List Pos) (g : GridC) (free : Nat),
    (∀ p ∈ ps, p.row < g.rows ∧ p.col < g.cols) →
    (unfillCells ps g free).isSome = true := by
  intro ps
  induction ps with
  | nil => intro g free _; rfl
  | cons p rest ih =>
    intro g free hall
    obtain ⟨hpr, hpc⟩ := hall p (List.mem_cons_self _ _)
    have hset := setCellE_isSome (c := Cell.Empty) hpr hpc
    simp only [unfillCells, hset]
    apply ih
    intro q hq
    exact hall q (List.mem_cons_of_mem _ hq)

/-- C10: every catalog placement accepted by `in_boundaries` materialises
through `iter_relative_to_place` to exactly four cells, each strictly
inside the given grid size, and the column subtraction never underflows
(the shift never exceeds offset column + anchor column); consequently the
per-cell grid writes performed by `fill_and_push` and `pop_and_clear` on
such a placement are all in bounds and cannot panic. -/
theorem claim_C10 : ∀ t ∈ TETRAS, ∀ (anchor : Pos) (bounds : Size)
    (ib : PlacedTetraInBoundaries),
    PlacedTetraInBoundaries.in_boundaries { tetra := t, position := anchor } bounds
      = some ib →
    ib.iter_relative_to_place.length = 4 ∧
    (∀ c ∈ ib.iter_relative_to_place, c.row < bounds.rows ∧ c.col < bounds.cols) ∧
    (∀ p ∈ t.positions, t.col_shift ≤ p.col + anchor.col) ∧
    (∀ (g : GridC) (free : Nat), g.rows = bounds.rows → g.cols = bounds.cols →
      (fillCells ib.iter_relative_to_place g free).isSome = true ∧
      (unfillCells ib.iter_relative_to_place g free).isSome = true) := by
  intro t ht anchor bounds ib hib
  have hv : ValidatedFor ib bounds := by
    obtain ⟨h1, h2, h3, rfl⟩ := in_boundaries_eq_some.mp hib
    exact ⟨ht, in_boundaries_eq_some.mpr ⟨h1, h2, h3, rfl⟩⟩
  refine ⟨cells_length hv, cells_inbounds hv, ?_, ?_⟩
  · intro p hp
    obtain ⟨h1, -, -, -⟩ := in_boundaries_eq_some.mp hib
    have h1' : t.col_shift ≤ anchor.col := h1
    omega
  · intro g free hr hc
    have hb : ∀ p ∈ ib.iter_relative_to_place, p.row < g.rows ∧ p.col < g.cols := by
      intro p hp
      have := cells_inbounds hv p hp
      omega
    exact ⟨fillCells_isSome _ g free hb, unfillCells_isSome _ g free hb⟩

/-- Witness for C10 at the O-square placed at the origin of a 2×2 grid. -/
theorem claim_C10_witness :
    sq00.iter_relative_to_place.length = 4 ∧
    (fillCells sq00.iter_relative_to_place (GridC.init 2 2) 4).isSome = true := by
  have h := claim_C10 (TETRAS.getD 0 defaultTetra) (by decide) { row := 0, col := 0 }
    { rows := 2, cols := 2 } sq00 (by decide)
  exact ⟨h.1, (h.2.2.2 (GridC.init 2 2) 4 rfl rfl).1⟩

/-- Recomputing the candidate cache touches no other engine field. -/
theorem update_fields (s : RecursionState) :
    (s.update_lookup_cache).grid = s.grid ∧
    (s.update_lookup_cache).how_many_free = s.how_many_free ∧
    (s.update_lookup_cache).stack = s.stack ∧
    (s.update_lookup_cache).results = s.results ∧
    (s.update_lookup_cache).results_limit = s.results_limit ∧
    (s.update_lookup_cache).acceptance_threshold = s.acceptance_threshold ∧
    (s.update_lookup_cache).initially_unavailable = s.initially_unavailable ∧
    (s.update_lookup_cache).stats_recursions = s.stats_recursions ∧
    (s.update_lookup_cache).stats_results = s.stats_results ∧
    (s.update_lookup_cache).random_tetras = s.random_tetras := by
  unfold RecursionState.update_lookup_cache
  dsimp only
  split <;> exact ⟨rfl, rfl, rfl, rfl, rfl, rfl, rfl, rfl, rfl, rfl⟩

/-- Full effect of `fill_and_push` on a validated placement covering only
`Empty` cells. -/
theorem fill_and_push_spec {s : RecursionState} {t : PlacedTetraInBoundaries}
    (hlen : s.grid.cells.length = s.grid.rows * s.grid.cols)
    (hv : ValidatedFor t s.grid.size_of)
    (hemp : ∀ p ∈ t.iter_relative_to_place, s.grid.cellAt p = Cell.Empty) :
    ∃ s1, s.fill_and_push t = some s1 ∧
      s1.grid.rows = s.grid.rows ∧ s1.grid.cols = s.grid.cols ∧
      s1.grid.cells.length = s.grid.cells.length ∧
      (∀ q, s1.grid.cellAt q =
        if q ∈ t.iter_relative_to_place then Cell.Occupied else s.grid.cellAt q) ∧
      s1.grid.countCell Cell.Empty + 4 = s.grid.countCell Cell.Empty ∧
      s1.grid.countCell Cell.Occupied = s.grid.countCell Cell.Occupied + 4 ∧
      s1.grid.countCell Cell.Unavailable = s.grid.countCell Cell.Unavailable ∧
      s1.how_many_free = s.how_many_free - 4 ∧
      s1.stack = t :: s.stack ∧
      s1.results = s.results ∧ s1.results_limit = s.results_limit ∧
      s1.acceptance_threshold = s.acceptance_threshold ∧
      s1.initially_unavailable = s.initially_unavailable ∧
      s1.stats_recursions = s.stats_recursions ∧
      s1.stats_results = s.stats_results ∧
      s1.random_tetras = s.random_tetras := by
  have hcond : ∀ p ∈ t.iter_relative_to_place,
      p.row < s.grid.rows ∧ p.col < s.grid.cols ∧ s.grid.cellAt p = Cell.Empty := by
    intro p hp
    have := cells_inbounds hv p hp
    exact ⟨this.1, this.2, hemp p hp⟩
  obtain ⟨gF, hfill, hr, hc, hlenF, hat, hcE, hcO, hcU⟩ :=
    fillCells_spec t.iter_relative_to_place s.grid s.how_many_free hlen
      (cells_nodup hv) hcond
  have hlen4 := cells_length hv
  set s1mid : RecursionState :=
    { s with
      grid := gF
      how_many_free := s.how_many_free - 4
      stack := t :: s.stack } with hs1
  refine ⟨s1mid.update_lookup_cache, ?_, ?_⟩
  · show RecursionState.fill_and_push s t = _
    simp only [RecursionState.fill_and_push, hfill, hlen4, hs1]
  · have hu := update_fields s1mid
    rw [hu.1, hu.2.1, hu.2.2.1, hu.2.2.2.1, hu.2.2.2.2.1, hu.2.2.2.2.2.1,
      hu.2.2.2.2.2.2.1, hu.2.2.2.2.2.2.2.1, hu.2.2.2.2.2.2.2.2.1,
      hu.2.2.2.2.2.2.2.2.2]
    rw [hlen4] at hcE hcO
    exact ⟨hr, hc, hlenF, hat, hcE, hcO, hcU, rfl, rfl, rfl, rfl, rfl, rfl, rfl, rfl, rfl⟩

/-- Full effect of `pop_and_clear` when the stack top covers `Occupied`
cells. -/
theorem pop_and_clear_spec {s : RecursionState} {t : PlacedTetraInBoundaries}
    {rest : List PlacedTetraInBoundaries}
    (hlen : s.grid.cells.length = s.grid.rows * s.grid.cols)
    (hstack : s.stack = t :: rest)
    (hv : ValidatedFor t s.grid.size_of)
    (hocc : ∀ p ∈ t.iter_relative_to_place, s.grid.cellAt p = Cell.Occupied) :
    ∃ s2, s.pop_and_clear = some s2 ∧
      s2.grid.rows = s.grid.rows ∧ s2.grid.cols = s.grid.cols ∧
      s2.grid.cells.length = s.grid.cells.length ∧
      (∀ q, s2.grid.cellAt q =
        if q ∈ t.iter_relative_to_place then Cell.Empty else s.grid.cellAt q) ∧
      s2.grid.countCell Cell.Empty = s.grid.countCell Cell.Empty + 4 ∧
      s2.grid.countCell Cell.Occupied + 4 = s.grid.countCell Cell.Occupied ∧
      s2.grid.countCell Cell.Unavailable = s.grid.countCell Cell.Unavailable ∧
      s2.how_many_free = s.how_many_free + 4 ∧
      s2.stack = rest ∧
      s2.results = s.results ∧ s2.results_limit = s.results_limit ∧
      s2.acceptance_threshold = s.acceptance_threshold ∧
      s2.initially_unavailable = s.initially_unavailable ∧
      s2.stats_recursions = s.stats_recursions ∧
      s2.stats_results = s.stats_results ∧
      s2.random_tetras = s.random_tetras := by
  have hcond : ∀ p ∈ t.iter_relative_to_place,
      p.row < s.grid.rows ∧ p.col < s.grid.cols ∧ s.grid.cellAt p = Cell.Occupied := by
    intro p hp
    have := cells_inbounds hv p hp
    exact ⟨this.1, this.2, hocc p hp⟩
  obtain ⟨gU, hunfill, hr, hc, hlenU, hat, hcE, hcO, hcU⟩ :=
    unfillCells_spec t.iter_relative_to_place s.grid s.how_many_free hlen
      (cells_nodup hv) hcond
  have hlen4 := cells_length hv
  set s2mid : RecursionState :=
    { s with
      grid := gU
      how_many_free := s.how_many_free + 4
      stack := rest } with hs2
  refine ⟨s2mid.update_lookup_cache, ?_, ?_⟩
  · show RecursionState.pop_and_clear s = _
    simp only [RecursionState.pop_and_clear, hstack, hunfill, hlen4, hs2]
  · have hu := update_fields s2mid
    rw [hu.1, hu.2.1, hu.2.2.1, hu.2.2.2.1, hu.2.2.2.2.1, hu.2.2.2.2.2.1,
      hu.2.2.2.2.2.2.1, hu.2.2.2.2.2.2.2.1, hu.2.2.2.2.2.2.2.2.1,
      hu.2.2.2.2.2.2.2.2.2]
    rw [hlen4] at hcE hcO
    exact ⟨hr, hc, hlenU, hat, hcE, hcO, hcU, rfl, rfl, rfl, rfl, rfl, rfl, rfl, rfl, rfl⟩

/-- C7: on an engine state whose free counter is honest, filling a
validated placement whose four cells are `Empty` and immediately popping it
restores the grid cell contents, the free-cell counter, and the placement
stack exactly; the fill itself makes the four cells `Occupied`, decrements
the free counter by four, and pushes the placement. -/
theorem claim_C7 (s : RecursionState) (t : PlacedTetraInBoundaries)
    (hv : ValidatedFor t s.grid.size_of)
    (hemp : ∀ p ∈ t.iter_relative_to_place, s.grid.cellAt p = Cell.Empty)
    (hlen : s.grid.cells.length = s.grid.rows * s.grid.cols)
    (hfree : s.how_many_free = s.grid.countCell Cell.Empty) :
    ∃ s1 s2, s.fill_and_push t = some s1 ∧
      (∀ p ∈ t.iter_relative_to_place, s1.grid.cellAt p = Cell.Occupied) ∧
      s1.how_many_free + 4 = s.how_many_free ∧
      s1.stack = t :: s.stack ∧
      s1.pop_and_clear = some s2 ∧
      s2.grid = s.grid ∧ s2.how_many_free = s.how_many_free ∧ s2.stack = s.stack := by
  have hge : 4 ≤ s.grid.countCell Cell.Empty := by
    have := count_ge_of_positions (c := Cell.Empty) (by simp)
      t.iter_relative_to_place s.grid hlen (cells_nodup hv)
      (fun p hp => ⟨(cells_inbounds hv p hp).1, (cells_inbounds hv p hp).2, hemp p hp⟩)
    rw [cells_length hv] at this
    exact this
  obtain ⟨s1, hf, hr1, hc1, hlen1, hat1, hcE1, hcO1, hcU1, hfree1, hstack1,
    hres1, hlim1, hacc1, hiu1, hsr1, hss1, hrt1⟩ := fill_and_push_spec hlen hv hemp
  have hocc1 : ∀ p ∈ t.iter_relative_to_place, s1.grid.cellAt p = Cell.Occupied := by
    intro p hp
    rw [hat1 p, if_pos hp]
  have hv1 : ValidatedFor t s1.grid.size_of := by
    have : s1.grid.size_of = s.grid.size_of := by
      simp only [GridC.size_of, hr1, hc1]
    rw [this]
    exact hv
  obtain ⟨s2, hp2, hr2, hc2, hlen2, hat2, hcE2, hcO2, hcU2, hfree2, hstack2,
    hres2, hlim2, hacc2, hiu2, hsr2, hss2, hrt2⟩ :=
    pop_and_clear_spec (by rw [hlen1, hlen, hr1, hc1]) hstack1 hv1 hocc1
  refine ⟨s1, s2, hf, hocc1, by omega, hstack1, hp2, ?_, by omega, hstack2⟩
  apply grid_ext (by rw [hr2, hr1]) (by rw [hc2, hc1]) hlen
    (by rw [hlen2, hlen1, hlen, hr2, hr1, hc2, hc1])
  intro q
  rw [hat2 q]
  by_cases hq : q ∈ t.iter_relative_to_place
  · rw [if_pos hq, (hemp q hq).symm]
  · rw [if_neg hq, hat1 q, if_neg hq]

/-- Witness for C7: fill-then-pop of the O-square on the fresh 2×2 engine
state restores the grid, the free counter, and the (empty) stack. -/
theorem claim_C7_witness :
    ((state2x2.fill_and_push sq00).bind RecursionState.pop_and_clear).map
      (fun s => (s.grid, s.how_many_free, s.stack)) =
      some (state2x2.grid, state2x2.how_many_free, state2x2.stack) := by
  obtain ⟨s1, s2, hf, _, _, _, hp, hg, hfr, hst⟩ :=
    claim_C7 state2x2 sq00 ⟨by decide, by decide⟩ (by decide) (by decide) (by decide)
  rw [hf]
  show (s1.pop_and_clear).map (fun s => (s.grid, s.how_many_free, s.stack)) = _
  rw [hp]
  show some (s2.grid, s2.how_many_free, s2.stack) = _
  rw [hg, hfr, hst]

/-- Results after the acceptance step: a snapshot (with the literal
`free: 0`) is appended exactly when no shape fit and the free count is
below the threshold. -/
theorem recordResult_results (s : RecursionState) (fit : Bool) :
    (recordResult s fit).1.results =
      if !fit && decide (s.how_many_free < s.acceptance_threshold)
      then s.results ++ [{ placement := s.stack, free := 0 }]
      else s.results := by
  unfold recordResult
  split
  next h =>
    dsimp only
    split
    · split <;> rfl
    · rfl
  next h =>
    rfl

/-- The acceptance step halts exactly when it records the result that
reaches the configured limit. -/
theorem recordResult_halt (s : RecursionState) (fit : Bool) :
    (recordResult s fit).2 = RecursionResult.Halt ↔
      (fit = false ∧ s.how_many_free < s.acceptance_threshold ∧
        s.results_limit = some (s.results.length + 1)) := by
  unfold recordResult
  split
  next h =>
    simp only [Bool.and_eq_true, Bool.not_eq_true', decide_eq_true_eq] at h
    dsimp only
    split
    next limit hlim =>
      split
      next heq =>
        simp only [List.length_append, List.length_cons, List.length_nil] at heq
        constructor
        · intro _
          exact ⟨h.1, h.2, by rw [hlim]; exact congrArg some heq.symm⟩
        · intro _
          rfl
      next heq =>
        simp only [List.length_append, List.length_cons, List.length_nil] at heq
        constructor
        · intro hc
          dsimp only at hc
          cases hc
        · rintro ⟨-, -, hl⟩
          rw [hlim] at hl
          cases hl
          omega
    next hlim =>
      constructor
      · intro hc
        dsimp only at hc
        cases hc
      · rintro ⟨-, -, hl⟩
        rw [hlim] at hl
        cases hl
  next h =>
    simp only [Bool.and_eq_true, Bool.not_eq_true', decide_eq_true_eq, not_and] at h
    constructor
    · intro hc
      dsimp only at hc
      cases hc
    · rintro ⟨h1, h2, -⟩
      exact absurd h2 (h h1)

/-- The acceptance step touches only `results` and `stats_results`. -/
theorem recordResult_fields (s : RecursionState) (fit : Bool) :
    (recordResult s fit).1.results_limit = s.results_limit ∧
    (recordResult s fit).1.acceptance_threshold = s.acceptance_threshold ∧
    (recordResult s fit).1.initially_unavailable = s.initially_unavailable ∧
    (recordResult s fit).1.grid = s.grid ∧
    (recordResult s fit).1.how_many_free = s.how_many_free ∧
    (recordResult s fit).1.stack = s.stack ∧
    (recordResult s fit).1.positions_for_lookup = s.positions_for_lookup ∧
    (recordResult s fit).1.random_tetras = s.random_tetras := by
  unfold recordResult
  split
  · dsimp only
    split
    · split <;> exact ⟨rfl, rfl, rfl, rfl, rfl, rfl, rfl, rfl⟩
    · exact ⟨rfl, rfl, rfl, rfl, rfl, rfl, rfl, rfl⟩
  · exact ⟨rfl, rfl, rfl, rfl, rfl, rfl, rfl, rfl⟩

/-- Hypothesis-free field preservation of `fill_and_push` (whatever cells
it wrote, the administrative fields survive). -/
theorem fill_and_push_preserves {s : RecursionState} {t : PlacedTetraInBoundaries}
    {s1 : RecursionState} (h : s.fill_and_push t = some s1) :
    s1.results = s.results ∧ s1.results_limit = s.results_limit ∧
    s1.acceptance_threshold = s.acceptance_threshold ∧
    s1.initially_unavailable = s.initially_unavailable := by
  unfold RecursionState.fill_and_push at h
  cases hfc : fillCells t.iter_relative_to_place s.grid s.how_many_free with
  | none => rw [hfc] at h; cases h
  | some pr =>
    obtain ⟨g, f⟩ := pr
    rw [hfc] at h
    dsimp only at h
    cases h
    have hu := update_fields
      { s with grid := g, how_many_free := f, stack := t :: s.stack }
    exact ⟨hu.2.2.2.1, hu.2.2.2.2.1, hu.2.2.2.2.2.1, hu.2.2.2.2.2.2.1⟩

/-- Hypothesis-free field preservation of `pop_and_clear`. -/
theorem pop_and_clear_preserves {s s2 : RecursionState}
    (h : s.pop_and_clear = some s2) :
    s2.results = s.results ∧ s2.results_limit = s.results_limit ∧
    s2.acceptance_threshold = s.acceptance_threshold ∧
    s2.initially_unavailable = s.initially_unavailable := by
  unfold RecursionState.pop_and_clear at h
  cases hst : s.stack with
  | nil => rw [hst] at h; cases h
  | cons top rest =>
    rw [hst] at h
    dsimp only at h
    cases hfc : unfillCells top.iter_relative_to_place s.grid s.how_many_free with
    | none => rw [hfc] at h; cases h
    | some pr =>
      obtain ⟨g, f⟩ := pr
      rw [hfc] at h
      dsimp only at h
      cases h
      have hu := update_fields { s with grid := g, how_many_free := f, stack := rest }
      exact ⟨hu.2.2.2.1, hu.2.2.2.2.1, hu.2.2.2.2.2.1, hu.2.2.2.2.2.2.1⟩

/-- Characterisation of a successful candidate search: the placement comes
from a cache position, passed the bounds check, and covers only `Empty`
cells. -/
theorem find_any_fit_core_some {positions : List Pos} {g : GridC} {tetra : Tetra}
    {ib : PlacedTetraInBoundaries}
    (h : find_any_fit_core positions g tetra = some ib) :
    (∃ pos ∈ positions,
      PlacedTetraInBoundaries.in_boundaries { tetra := tetra, position := pos }
        g.size_of = some ib) ∧
    ∀ p ∈ ib.iter_relative_to_place, g.cellAt p = Cell.Empty := by
  unfold find_any_fit_core at h
  rw [Option.join_eq_some] at h
  have hmem := List.mem_of_find?_eq_some h
  have hpred := List.find?_some h
  simp only [List.mem_map] at hmem
  obtain ⟨pos, hpos, heq⟩ := hmem
  constructor
  · exact ⟨pos, hpos, heq⟩
  · intro p hp
    simp only [List.all_eq_true] at hpred
    have := hpred p hp
    cases hcell : g.cellAt p <;> rw [hcell] at this <;> first | rfl | cases this

/-- Every shape drawn by `finite_iter` is a catalog shape. -/
theorem finite_iter_mem {r : RandomTetras} :
    ∀ t ∈ r.finite_iter.1, t ∈ TETRAS := by
  intro t ht
  simp only [RandomTetras.finite_iter, List.mem_map, List.mem_range] at ht
  obtain ⟨i, -, rfl⟩ := ht
  have hlt : r.seq (r.ctr + i) % TETRAS_COUNT < TETRAS.length := by
    have : r.seq (r.ctr + i) % TETRAS_COUNT < TETRAS_COUNT :=
      Nat.mod_lt _ (by decide)
    simpa [TETRAS] using this
  rw [List.getD_eq_getElem _ _ hlt]
  exact List.getElem_mem hlt

/-- Generic invariant lemma for the bounded traversal: any state property
stable under the node-entry bookkeeping, engine fills, pops, and the
acceptance step is preserved by `recursion`. -/
theorem recursion_invariant (P : RecursionState → Prop)
    (hstats : ∀ s n rt, P s →
      P { s with stats_recursions := n, random_tetras := rt })
    (hfill : ∀ (s : RecursionState) (tetra : Tetra) (ib : PlacedTetraInBoundaries)
      (s1 : RecursionState), P s → tetra ∈ TETRAS →
      s.find_any_fit_for tetra = some ib → s.fill_and_push ib = some s1 → P s1)
    (hpop : ∀ s s2, P s → s.pop_and_clear = some s2 → P s2)
    (hacc : ∀ s fit, P s → P (recordResult s fit).1) :
    ∀ fuel s out, recursion fuel s = some out → P s → P out.1 := by
  have hloop : ∀ (recur : RecursionState → Option (RecursionState × RecursionResult)),
      (∀ s out, recur s = some out → P s → P out.1) →
      ∀ (tetras : List Tetra) (s : RecursionState) (fit : Bool) out,
      (∀ t ∈ tetras, t ∈ TETRAS) →
      shapeLoop recur tetras s fit = some out → P s → P out.1 := by
    intro recur hrec tetras
    induction tetras with
    | nil =>
      intro s fit out _ h hP
      cases h
      exact hP
    | cons tetra rest ih =>
      intro s fit out hcat h hP
      rw [shapeLoop] at h
      cases hfind : s.find_any_fit_for tetra with
      | none =>
        rw [hfind] at h
        exact ih s fit out (fun t ht => hcat t (List.mem_cons_of_mem _ ht)) h hP
      | some ib =>
        rw [hfind] at h
        dsimp only at h
        cases hfp : s.fill_and_push ib with
        | none => rw [hfp] at h; cases h
        | some s1 =>
          rw [hfp] at h
          dsimp only at h
          have hP1 : P s1 := hfill s tetra ib s1 hP
            (hcat tetra (List.mem_cons_self _ _)) hfind hfp
          cases hre : recur s1 with
          | none => rw [hre] at h; cases h
          | some pr =>
            obtain ⟨s2, r⟩ := pr
            rw [hre] at h
            have hP2 : P s2 := hrec s1 (s2, r) hre hP1
            cases r with
            | Halt =>
              dsimp only at h
              cases h
              exact hP2
            | Continue =>
              dsimp only at h
              cases hpc : s2.pop_and_clear with
              | none => rw [hpc] at h; cases h
              | some s3 =>
                rw [hpc] at h
                exact ih s3 true out
                  (fun t ht => hcat t (List.mem_cons_of_mem _ ht)) h
                  (hpop s2 s3 hP2 hpc)
  intro fuel
  induction fuel with
  | zero => intro s out h; cases h
  | succ fuel ih =>
    intro s out h hP
    rw [recursion] at h
    set sA : RecursionState :=
      { s with
        stats_recursions := s.stats_recursions + 1
        random_tetras := s.random_tetras.finite_iter.2 } with hsA
    have hPA : P sA := hstats s _ _ hP
    cases hsl : shapeLoop (recursion fuel) s.random_tetras.finite_iter.1 sA false with
    | none =>
      rw [hsl] at h
      cases h
    | some trip =>
      obtain ⟨s1, fit, r⟩ := trip
      rw [hsl] at h
      have hP1 : P s1 :=
        hloop (recursion fuel) (fun a b hb hPa => ih a b hb hPa)
          s.random_tetras.finite_iter.1 sA false (s1, fit, r)
          finite_iter_mem hsl hPA
      cases r with
      | Halt =>
        dsimp only at h
        cases h
        exact hP1
      | Continue =>
        dsimp only at h
        cases h
        exact hacc s1 fit hP1

/-- The counters of the blocked-cell marking loop advance by one per list
element. -/
theorem markUnavailable_counts : ∀ (ps : List Pos) (g : GridC) (iu free : Nat)
    (out : GridC × Nat × Nat),
    markUnavailable ps (g, iu, free) = some out →
    out.2.1 = iu + ps.length ∧ out.2.2 = free - ps.length := by
  intro ps
  induction ps with
  | nil =>
    intro g iu free out h
    cases h
    simp
  | cons p rest ih =>
    intro g iu free out h
    rw [markUnavailable] at h
    cases hset : g.setCellE p Cell.Unavailable with
    | none => rw [hset] at h; cases h
    | some g1 =>
      rw [hset] at h
      dsimp only at h
      have hr := ih g1 (iu + 1) (free - 1) out h
      simp only [List.length_cons]
      omega

/-- C3: in the randomized bounded policy, the acceptance step records a
result exactly when no shape fit at the call and the free-cell count is
strictly below the acceptance threshold; the threshold is computed at
engine construction as `⌊√(initial_free_cells − minimum_remainder)⌋` with
`minimum_remainder = (rows·cols − blocked_count) mod 4`, and is never
changed by the recursion. -/
theorem claim_C3 :
    (∀ (s : RecursionState) (was_any_fit : Bool),
      ((recordResult s was_any_fit).1.results.length = s.results.length + 1 ↔
        (was_any_fit = false ∧ s.how_many_free < s.acceptance_threshold)) ∧
      ((recordResult s was_any_fit).1.results.length = s.results.length ∨
        (recordResult s was_any_fit).1.results.length = s.results.length + 1)) ∧
    (∀ (cfg : Configuration) (seq : Nat → Nat) (s : RecursionState),
      with_configuration cfg seq = some s →
      s.acceptance_threshold =
        Nat.sqrt ((cfg.size.rows * cfg.size.cols - cfg.unavailable.length) -
          (cfg.size.rows * cfg.size.cols - cfg.unavailable.length) % 4)) ∧
    (∀ (fuel : Nat) (s : RecursionState) (out : RecursionState × RecursionResult),
      recursion fuel s = some out →
      out.1.acceptance_threshold = s.acceptance_threshold) := by
  refine ⟨?_, ?_, ?_⟩
  · intro s fit
    have hres := recordResult_results s fit
    by_cases hc : (!fit && decide (s.how_many_free < s.acceptance_threshold)) = true
    · rw [if_pos hc] at hres
      simp only [Bool.and_eq_true, Bool.not_eq_true', decide_eq_true_eq] at hc
      rw [hres]
      simp only [List.length_append, List.length_cons, List.length_nil]
      constructor
      · constructor
        · intro _
          exact hc
        · intro _
          trivial
      · right
        trivial
    · rw [if_neg hc] at hres
      simp only [Bool.and_eq_true, Bool.not_eq_true', decide_eq_true_eq, not_and] at hc
      rw [hres]
      constructor
      · constructor
        · intro habs
          omega
        · rintro ⟨h1, h2⟩
          exact absurd h2 (hc h1)
      · left
        rfl
  · intro cfg seq s h
    simp only [with_configuration] at h
    cases hmk : markUnavailable cfg.unavailable
        (GridC.init cfg.size.rows cfg.size.cols, 0,
          cfg.size.rows * cfg.size.cols) with
    | none => rw [hmk] at h; cases h
    | some out =>
      obtain ⟨g, iu, free⟩ := out
      rw [hmk] at h
      dsimp only at h
      cases h
      have hc := markUnavailable_counts _ _ _ _ _ hmk
      dsimp only at hc
      show isqrt (free - (cfg.size.cols * cfg.size.rows - iu) % 4) = _
      rw [isqrt_eq_sqrt, hc.1, hc.2, Nat.zero_add, Nat.mul_comm cfg.size.cols]
  · intro fuel s out h
    exact recursion_invariant
      (fun x => x.acceptance_threshold = s.acceptance_threshold)
      (fun x n rt hx => hx)
      (fun x tetra ib x1 hx _ _ hfp =>
        ((fill_and_push_preserves hfp).2.2.1).trans hx)
      (fun x x2 hx hpc => ((pop_and_clear_preserves hpc).2.2.1).trans hx)
      (fun x fit hx => ((recordResult_fields x fit).2.1).trans hx)
      fuel s out h rfl

/-- Witness for C3 on the fresh 2×2 engine state: the threshold formula
holds, and a call where a shape fit records nothing. -/
theorem claim_C3_witness :
    state2x2.acceptance_threshold =
      Nat.sqrt ((cfg2x2.size.rows * cfg2x2.size.cols - cfg2x2.unavailable.length) -
        (cfg2x2.size.rows * cfg2x2.size.cols - cfg2x2.unavailable.length) % 4) ∧
    (recordResult state2x2 true).1.results.length = state2x2.results.length := by
  refine ⟨claim_C3.2.1 cfg2x2 seqId state2x2 (Option.some_get _).symm, ?_⟩
  have h := claim_C3.1 state2x2 true
  rcases h.2 with he | he
  · exact he
  · exact absurd (h.1.mp he).1 (by simp)

/-- A write to an out-of-bounds position panics. -/
theorem setCellE_eq_none {g : GridC} {p : Pos} {c : Cell}
    (h : ¬(p.row < g.rows ∧ p.col < g.cols)) : g.setCellE p c = none := by
  simp only [GridC.setCellE, Bool.and_eq_true, decide_eq_true_eq]
  rw [if_neg h]

/-- The marking loop panics whenever some listed position is out of
bounds. -/
theorem markUnavailable_oob : ∀ (ps : List Pos) (g : GridC) (iu free : Nat),
    (∃ p ∈ ps, ¬(p.row < g.rows ∧ p.col < g.cols)) →
    markUnavailable ps (g, iu, free) = none := by
  intro ps
  induction ps with
  | nil =>
    rintro g iu free ⟨p, hp, -⟩
    cases hp
  | cons p rest ih =>
    rintro g iu free ⟨q, hq, hoob⟩
    rw [markUnavailable]
    rcases List.mem_cons.mp hq with rfl | hq'
    · rw [setCellE_eq_none hoob]
    · cases hset : g.setCellE p Cell.Unavailable with
      | none => rfl
      | some g1 =>
        obtain ⟨-, -, rfl⟩ := setCellE_eq_some.mp hset
        dsimp only
        exact ih _ _ _ ⟨q, hq', hoob⟩

/-- A zero-area grid produces an empty initial candidate cache. -/
theorem initialLookup_zero {g : GridC} (h : g.rows * g.cols = 0) :
    initialLookup g = [] := by
  rcases Nat.mul_eq_zero.mp h with h0 | h0 <;> simp [initialLookup, h0]

/-- With an empty candidate cache no shape ever fits, so the shape loop
finishes without any fill. -/
theorem shapeLoop_empty_lookup
    (recur : RecursionState → Option (RecursionState × RecursionResult)) :
    ∀ (tetras : List Tetra) (s : RecursionState) (fit : Bool),
    s.positions_for_lookup = [] →
    shapeLoop recur tetras s fit = some (s, fit, RecursionResult.Continue) := by
  intro tetras
  induction tetras with
  | nil => intro s fit _; rfl
  | cons tetra rest ih =>
    intro s fit hlk
    rw [shapeLoop]
    have hnone : s.find_any_fit_for tetra = none := by
      unfold RecursionState.find_any_fit_for
      rw [hlk]
      rfl
    rw [hnone]
    exact ih s fit hlk

/-- Counterexample to C8 as stated: a zero-area configuration is accepted
by engine construction (and its run returns an empty result collection),
while an out-of-bounds blocked position does not produce a caller-reported
error but the modelled index panic. -/
theorem claim_C8_counterexample :
    (with_configuration cfgZeroArea seqId).isSome = true ∧
    runResults cfgZeroArea seqId 5 = some [] ∧
    (with_configuration cfgOutOfBounds seqId).isSome = false :=
  ⟨by decide, by decide, by decide⟩

/-- C8 (amended): construction performs no validation and cannot report an
error.  A blocked position outside the grid bounds makes engine-state
construction panic (the modelled `none`), which happens before any search;
a zero-area grid is accepted and the search then returns an empty result
collection. -/
theorem claim_C8 :
    (∀ (cfg : Configuration) (seq : Nat → Nat),
      (∃ p ∈ cfg.unavailable, ¬(p.row < cfg.size.rows ∧ p.col < cfg.size.cols)) →
      with_configuration cfg seq = none) ∧
    (∀ (cfg : Configuration) (seq : Nat → Nat) (fuel : Nat),
      cfg.unavailable = [] → cfg.size.rows * cfg.size.cols = 0 → 1 ≤ fuel →
      runResults cfg seq fuel = some []) := by
  constructor
  · intro cfg seq hoob
    simp only [with_configuration]
    rw [markUnavailable_oob cfg.unavailable (GridC.init cfg.size.rows cfg.size.cols)
      0 (cfg.size.rows * cfg.size.cols) hoob]
  · intro cfg seq fuel hun hzero hfuel
    cases fuel with
    | zero => omega
    | succ fuel =>
      unfold runResults runFull with_configuration
      rw [hun]
      show ((recursion (fuel + 1)
        { grid := GridC.init cfg.size.rows cfg.size.cols
          how_many_free := cfg.size.rows * cfg.size.cols
          stack := []
          results := []
          positions_for_lookup := initialLookup (GridC.init cfg.size.rows cfg.size.cols)
          initially_unavailable := 0
          stats_recursions := 0
          stats_results := 0
          results_limit := cfg.results_limit
          acceptance_threshold := isqrt (cfg.size.rows * cfg.size.cols -
            (cfg.size.cols * cfg.size.rows - 0) % 4)
          random_tetras := { seq := seq, ctr := 0 } }).map (fun x => x.1.results)) = some []
      rw [recursion]
      have hlk : initialLookup (GridC.init cfg.size.rows cfg.size.cols) = [] :=
        initialLookup_zero (by simpa [GridC.init] using hzero)
      rw [shapeLoop_empty_lookup (recursion fuel) _ _ false hlk]
      dsimp only
      rw [recordResult]
      have hcond : (!false && decide ((cfg.size.rows * cfg.size.cols) <
          isqrt (cfg.size.rows * cfg.size.cols - (cfg.size.cols * cfg.size.rows - 0) % 4)))
          = false := by
        simp only [Bool.not_false, Bool.true_and, decide_eq_false_iff_not, not_lt]
        rw [hzero]
        simp only [Nat.zero_sub]
        decide
      rw [hcond]
      rfl

/-- The exhaustive engine's fill step never touches the result vector. -/
theorem bf_fill_results {s s1 : BfState} {t : PlacedTetraInBoundaries}
    (h : s.fill_and_push t = some s1) : s1.results = s.results := by
  unfold BfState.fill_and_push at h
  cases hfc : fillCells t.iter_relative_to_place s.grid s.how_many_free with
  | none => rw [hfc] at h; cases h
  | some pr =>
    obtain ⟨g, f⟩ := pr
    rw [hfc] at h
    dsimp only at h
    cases h
    rfl

/-- The exhaustive engine's pop step never touches the result vector. -/
theorem bf_pop_results {s s2 : BfState} (h : s.pop_and_clear = some s2) :
    s2.results = s.results := by
  unfold BfState.pop_and_clear at h
  cases hst : s.stack with
  | nil => rw [hst] at h; cases h
  | cons top rest =>
    rw [hst] at h
    dsimp only at h
    cases hfc : unfillCells top.iter_relative_to_place s.grid s.how_many_free with
    | none => rw [hfc] at h; cases h
    | some pr =>
      obtain ⟨g, f⟩ := pr
      rw [hfc] at h
      dsimp only at h
      cases h
      rfl

/-- The exhaustive recursion never pushes a result: only the stats counter
moves (the `results.push` in the source is commented out). -/
theorem bfRecursion_results : ∀ (fuel : Nat) (s out : BfState),
    bfRecursion fuel s = some out → out.results = s.results := by
  intro fuel
  induction fuel with
  | zero => intro s out h; cases h
  | succ fuel ih =>
    intro s out h
    have hloop : ∀ (tetras : List Tetra) (x out : BfState),
        bfLoop (bfRecursion fuel) tetras x = some out → out.results = x.results := by
      intro tetras
      induction tetras with
      | nil =>
        intro x out h
        cases h
        rfl
      | cons tetra rest ihl =>
        intro x out h
        rw [bfLoop] at h
        cases hf : find_any_fit_core x.positions_for_lookup x.grid tetra with
        | none =>
          rw [hf] at h
          exact ihl x out h
        | some ib =>
          rw [hf] at h
          dsimp only at h
          cases hfp : x.fill_and_push ib with
          | none => rw [hfp] at h; cases h
          | some s1 =>
            rw [hfp] at h
            dsimp only at h
            cases hre : bfRecursion fuel s1 with
            | none => rw [hre] at h; cases h
            | some s2 =>
              rw [hre] at h
              dsimp only at h
              cases hpc : s2.pop_and_clear with
              | none => rw [hpc] at h; cases h
              | some s3 =>
                rw [hpc] at h
                rw [ihl s3 out h, bf_pop_results hpc, ih s1 s2 hre,
                  bf_fill_results hfp]
    rw [bfRecursion] at h
    by_cases hacc : s.how_many_free = s.min_free_cells
    · rw [if_pos hacc] at h
      have hx := hloop TETRAS _ out h
      exact hx
    · rw [if_neg hacc] at h
      have hx := hloop TETRAS _ out h
      exact hx

/-- C1 (code bug): the exhaustive policy returns an empty collection of
`PlacementResult`s for every configuration and fuel — `recursion` in
`main.rs` has its `results.push` commented out, so nothing is ever
returned, in particular not 267 results for the empty 4×4 grid nor 44 for
the 6×6 grid with a 2×2 blocked square; acceptance is only counted through
the stats sink. -/
theorem claim_C1 : ∀ (size : Size) (unavailable : List Pos) (fuel : Nat)
    (s : BfState), brute_force size unavailable fuel = some s →
    s.results = [] := by
  intro size unavailable fuel s h
  unfold brute_force at h
  cases hnew : bfNew size unavailable with
  | none => rw [hnew] at h; cases h
  | some s0 =>
    rw [hnew] at h
    dsimp only at h
    have h0 : s0.results = [] := by
      simp only [bfNew] at hnew
      cases hmk : markUnavailable unavailable
          (GridC.init size.rows size.cols, 0, size.rows * size.cols) with
      | none => rw [hmk] at hnew; cases hnew
      | some out =>
        obtain ⟨g, iu, free⟩ := out
        rw [hmk] at hnew
        dsimp only at hnew
        cases hnew
        rfl
    rw [bfRecursion_results fuel s0 s h, h0]

/-- Witness for C1: the 1×1 run finishes and indeed returns no results. -/
theorem claim_C1_witness :
    brute_force { rows := 1, cols := 1 } [] 3 = some bf1x1 ∧ bf1x1.results = [] :=
  ⟨(Option.some_get _).symm,
    claim_C1 { rows := 1, cols := 1 } [] 3 bf1x1 (Option.some_get _).symm⟩

/-- Cap behaviour of the acceptance step: starting strictly below the
limit, the step stays within the limit and halts exactly on reaching it. -/
theorem recordResult_cap {s : RecursionState} {N : Nat} (fit : Bool)
    (hlim : s.results_limit = some N) (hlt : s.results.length < N) :
    (recordResult s fit).1.results.length ≤ N ∧
    (recordResult s fit).1.results_limit = some N ∧
    ((recordResult s fit).2 = RecursionResult.Halt ↔
      (recordResult s fit).1.results.length = N) := by
  have hres := recordResult_results s fit
  have hhalt := recordResult_halt s fit
  have hfields := recordResult_fields s fit
  by_cases hc : (!fit && decide (s.how_many_free < s.acceptance_threshold)) = true
  · rw [if_pos hc] at hres
    simp only [Bool.and_eq_true, Bool.not_eq_true', decide_eq_true_eq] at hc
    have hlen : (recordResult s fit).1.results.length = s.results.length + 1 := by
      rw [hres]
      simp
    refine ⟨by omega, hfields.1.trans hlim, ?_⟩
    rw [hhalt, hlen, hlim]
    constructor
    · rintro ⟨-, -, he⟩
      cases he
      rfl
    · intro he
      exact ⟨hc.1, hc.2, congrArg some he.symm⟩
  · rw [if_neg hc] at hres
    simp only [Bool.and_eq_true, Bool.not_eq_true', decide_eq_true_eq, not_and] at hc
    have hlen : (recordResult s fit).1.results.length = s.results.length := by
      rw [hres]
    refine ⟨by omega, hfields.1.trans hlim, ?_⟩
    rw [hhalt, hlen]
    constructor
    · rintro ⟨h1, h2, -⟩
      exact absurd h2 (hc h1)
    · intro he
      exact absurd he (by omega)

/-- Cap behaviour of the whole recursion: starting strictly below the
limit, the result count never exceeds it, and the call halts exactly when
the count has reached it. -/
theorem recursion_cap : ∀ (fuel : Nat) (s : RecursionState)
    (out : RecursionState × RecursionResult) (N : Nat),
    s.results_limit = some N → s.results.length < N →
    recursion fuel s = some out →
    out.1.results.length ≤ N ∧ out.1.results_limit = some N ∧
      (out.2 = RecursionResult.Halt ↔ out.1.results.length = N) := by
  intro fuel
  induction fuel with
  | zero => intro s out N _ _ h; cases h
  | succ fuel ih =>
    intro s out N hlim hlt h
    have hloop : ∀ (tetras : List Tetra) (x : RecursionState) (fit : Bool)
        (out : RecursionState × Bool × RecursionResult),
        x.results_limit = some N → x.results.length < N →
        shapeLoop (recursion fuel) tetras x fit = some out →
        out.1.results.length ≤ N ∧ out.1.results_limit = some N ∧
          (out.2.2 = RecursionResult.Halt ↔ out.1.results.length = N) := by
      intro tetras
      induction tetras with
      | nil =>
        intro x fit out hl hltx h
        cases h
        dsimp only
        refine ⟨Nat.le_of_lt hltx, hl, ?_⟩
        constructor
        · intro hc
          cases hc
        · intro he
          exact absurd he (by omega)
      | cons tetra rest ihl =>
        intro x fit out hl hltx h
        rw [shapeLoop] at h
        cases hfind : x.find_any_fit_for tetra with
        | none =>
          rw [hfind] at h
          exact ihl x fit out hl hltx h
        | some ib =>
          rw [hfind] at h
          dsimp only at h
          cases hfp : x.fill_and_push ib with
          | none => rw [hfp] at h; cases h
          | some s1 =>
            rw [hfp] at h
            dsimp only at h
            obtain ⟨hres1, hlim1, -, -⟩ := fill_and_push_preserves hfp
            cases hre : recursion fuel s1 with
            | none => rw [hre] at h; cases h
            | some pr =>
              obtain ⟨s2, r⟩ := pr
              rw [hre] at h
              have hsub := ih s1 (s2, r) N (hlim1.trans hl)
                (by rw [hres1]; exact hltx) hre
              cases r with
              | Halt =>
                dsimp only at h
                dsimp only at hsub
                cases h
                dsimp only
                refine ⟨hsub.1, hsub.2.1, ?_⟩
                constructor
                · intro _
                  exact hsub.2.2.mp rfl
                · intro _
                  rfl
              | Continue =>
                dsimp only at h
                dsimp only at hsub
                cases hpc : s2.pop_and_clear with
                | none => rw [hpc] at h; cases h
                | some s3 =>
                  rw [hpc] at h
                  obtain ⟨hres3, hlim3, -, -⟩ := pop_and_clear_preserves hpc
                  have hs2lt : s2.results.length < N := by
                    rcases Nat.lt_or_ge s2.results.length N with hlt2 | hge
                    · exact hlt2
                    · exfalso
                      have : s2.results.length = N := by
                        have := hsub.1
                        omega
                      have : (RecursionResult.Continue : RecursionResult) =
                          RecursionResult.Halt := hsub.2.2.mpr this
                      cases this
                  exact ihl s3 true out (hlim3.trans hsub.2.1)
                    (by rw [hres3]; exact hs2lt) h
    rw [recursion] at h
    cases hsl : shapeLoop (recursion fuel) s.random_tetras.finite_iter.1
        { s with
          stats_recursions := s.stats_recursions + 1
          random_tetras := s.random_tetras.finite_iter.2 } false with
    | none =>
      rw [hsl] at h
      cases h
    | some trip =>
      obtain ⟨s1, fit, r⟩ := trip
      rw [hsl] at h
      have htrip := hloop s.random_tetras.finite_iter.1
        { s with
          stats_recursions := s.stats_recursions + 1
          random_tetras := s.random_tetras.finite_iter.2 } false (s1, fit, r)
        hlim hlt hsl
      cases r with
      | Halt =>
        dsimp only at h
        dsimp only at htrip
        cases h
        dsimp only
        exact htrip
      | Continue =>
        dsimp only at h
        dsimp only at htrip
        cases h
        have hs1lt : s1.results.length < N := by
          rcases Nat.lt_or_ge s1.results.length N with hlt1 | hge
          · exact hlt1
          · exfalso
            have : s1.results.length = N := by
              have := htrip.1
              omega
            have : (RecursionResult.Continue : RecursionResult) =
                RecursionResult.Halt := htrip.2.2.mpr this
            cases this
        exact recordResult_cap fit htrip.2.1 hs1lt

/-- C4: with a configured cap `N`, the acceptance step returns `Halt`
exactly when it records the `N`-th result; a shape-loop caller receiving
`Halt` from its recursive call returns `Halt` immediately, popping nothing
and trying no further shapes; and a full run under a cap never accumulates
more than `N` results, halting exactly when it reaches `N`. -/
theorem claim_C4 :
    (∀ (s : RecursionState) (fit : Bool) (N : Nat), s.results_limit = some N →
      ((recordResult s fit).2 = RecursionResult.Halt ↔
        (fit = false ∧ s.how_many_free < s.acceptance_threshold ∧
          s.results.length + 1 = N))) ∧
    (∀ (recur : RecursionState → Option (RecursionState × RecursionResult))
      (rest : List Tetra) (s : RecursionState) (fit : Bool) (tetra : Tetra)
      (ib : PlacedTetraInBoundaries) (s1 s2 : RecursionState),
      s.find_any_fit_for tetra = some ib →
      s.fill_and_push ib = some s1 →
      recur s1 = some (s2, RecursionResult.Halt) →
      shapeLoop recur (tetra :: rest) s fit = some (s2, true, RecursionResult.Halt)) ∧
    (∀ (cfg : Configuration) (seq : Nat → Nat) (fuel N : Nat)
      (out : RecursionState × RecursionResult),
      cfg.results_limit = some N → 1 ≤ N →
      runFull cfg seq fuel = some out →
      out.1.results.length ≤ N ∧
      (out.2 = RecursionResult.Halt ↔ out.1.results.length = N)) := by
  refine ⟨?_, ?_, ?_⟩
  · intro s fit N hlim
    rw [recordResult_halt, hlim]
    constructor
    · rintro ⟨h1, h2, he⟩
      cases he
      exact ⟨h1, h2, rfl⟩
    · rintro ⟨h1, h2, he⟩
      exact ⟨h1, h2, congrArg some he.symm⟩
  · intro recur rest s fit tetra ib s1 s2 hfind hfp hre
    rw [shapeLoop, hfind]
    dsimp only
    rw [hfp]
    dsimp only
    rw [hre]
  · intro cfg seq fuel N out hlim hN hrun
    unfold runFull at hrun
    cases hwc : with_configuration cfg seq with
    | none => rw [hwc] at hrun; cases hrun
    | some s0 =>
      rw [hwc] at hrun
      have h0lim : s0.results_limit = some N := by
        simp only [with_configuration] at hwc
        cases hmk : markUnavailable cfg.unavailable
            (GridC.init cfg.size.rows cfg.size.cols, 0,
              cfg.size.rows * cfg.size.cols) with
        | none => rw [hmk] at hwc; cases hwc
        | some outm =>
          obtain ⟨g, iu, free⟩ := outm
          rw [hmk] at hwc
          dsimp only at hwc
          cases hwc
          exact hlim
      have h0len : s0.results.length < N := by
        have : s0.results = [] := by
          simp only [with_configuration] at hwc
          cases hmk : markUnavailable cfg.unavailable
              (GridC.init cfg.size.rows cfg.size.cols, 0,
                cfg.size.rows * cfg.size.cols) with
          | none => rw [hmk] at hwc; cases hwc
          | some outm =>
            obtain ⟨g, iu, free⟩ := outm
            rw [hmk] at hwc
            dsimp only at hwc
            cases hwc
            rfl
        rw [this]
        simpa using hN
      have := recursion_cap fuel s0 out N h0lim h0len hrun
      exact ⟨this.1, this.2.2⟩

/-- Witness for C8: the out-of-bounds configuration panics at
construction, and the zero-area configuration runs to an empty result
collection. -/
theorem claim_C8_witness :
    with_configuration cfgOutOfBounds seqId = none ∧
    runResults cfgZeroArea seqId 5 = some [] :=
  ⟨claim_C8.1 cfgOutOfBounds seqId
      ⟨{ row := 5, col := 5 }, by decide, by decide⟩,
    claim_C8.2 cfgZeroArea seqId 5 rfl rfl (by omega)⟩

/-- Witness for C4 at the capped 4×4 run under the identity supply. -/
theorem claim_C4_witness :
    run4x4cap1.1.results.length ≤ 1 ∧
    (run4x4cap1.2 = RecursionResult.Halt ↔ run4x4cap1.1.results.length = 1) :=
  claim_C4.2.2 cfg4x4cap1 seqId 30 1 run4x4cap1 rfl (Nat.le_refl 1)
    (Option.some_get _).symm

/-- The grid-state invariant survives a fill with a validated placement
covering only `Empty` cells. -/
theorem GInv_fill_core {cfg : Configuration} {s : RecursionState}
    {ib : PlacedTetraInBoundaries} {s1 : RecursionState}
    (hInv : GInv cfg s) (hv : ValidatedFor ib s.grid.size_of)
    (hempty : ∀ p ∈ ib.iter_relative_to_place, s.grid.cellAt p = Cell.Empty)
    (hfp : s.fill_and_push ib = some s1) : GInv cfg s1 := by
  obtain ⟨hrows, hcols, hlen, hfree, hocc, hunav, hiu, hchar, hstack, hpw⟩ := hInv
  obtain ⟨s1', hf, hr1, hc1, hlen1, hat1, hcE1, hcO1, hcU1, hfree1, hstack1,
    hres1, hlim1, hacc1, hiu1, hsr1, hss1, hrt1⟩ := fill_and_push_spec hlen hv hempty
  rw [hf] at hfp
  injection hfp with hfp
  subst hfp
  have hge : 4 ≤ s.grid.countCell Cell.Empty := by
    have := count_ge_of_positions (c := Cell.Empty) (by simp)
      ib.iter_relative_to_place s.grid hlen (cells_nodup hv)
      (fun p hp => ⟨(cells_inbounds hv p hp).1, (cells_inbounds hv p hp).2, hempty p hp⟩)
    rw [cells_length hv] at this
    exact this
  have hsz : s1'.grid.size_of = s.grid.size_of := by
    simp [GridC.size_of, hr1, hc1]
  refine ⟨hr1.trans hrows, hc1.trans hcols, by rw [hlen1, hlen, hr1, hc1],
    by omega, by rw [hcO1, hocc, hstack1]; simp; omega, hcU1.trans hunav,
    hiu1.trans hiu, ?_, ?_, ?_⟩
  · intro p hpr hpc
    rw [hat1 p]
    by_cases hp : p ∈ ib.iter_relative_to_place
    · rw [if_pos hp]
      have hpe := hempty p hp
      have := (hchar p (by omega) (by omega)).not.mpr
      constructor
      · intro hc
        cases hc
      · intro hmem
        have := (hchar p (by omega) (by omega)).mpr hmem
        rw [hpe] at this
        cases this
    · rw [if_neg hp]
      exact hchar p (by omega) (by omega)
  · intro t ht
    rw [hstack1] at ht
    rcases List.mem_cons.mp ht with rfl | ht'
    · refine ⟨by rw [hsz]; exact hv, ?_⟩
      intro p hp
      rw [hat1 p, if_pos hp]
    · obtain ⟨htv, htocc⟩ := hstack t ht'
      refine ⟨by rw [hsz]; exact htv, ?_⟩
      intro p hp
      rw [hat1 p]
      have hpo := htocc p hp
      rw [if_neg ?_]
      · exact hpo
      · intro hmem
        rw [hempty p hmem] at hpo
        cases hpo
  · rw [hstack1]
    refine List.Pairwise.cons ?_ hpw
    intro b hb x hx hxb
    have h1 := hempty x hx
    have h2 := (hstack b hb).2 x hxb
    rw [h1] at h2
    cases h2

/-- The grid-state invariant survives an engine fill (a placement found by
the candidate search, hence validated and covering only `Empty` cells). -/
theorem GInv_fill {cfg : Configuration} {s : RecursionState} {tetra : Tetra}
    {ib : PlacedTetraInBoundaries} {s1 : RecursionState}
    (hInv : GInv cfg s) (hcat : tetra ∈ TETRAS)
    (hfind : s.find_any_fit_for tetra = some ib)
    (hfp : s.fill_and_push ib = some s1) : GInv cfg s1 := by
  obtain ⟨⟨pos, hpos, hib⟩, hempty⟩ := find_any_fit_core_some hfind
  have hv : ValidatedFor ib s.grid.size_of := by
    obtain ⟨h1, h2, h3, rfl⟩ := in_boundaries_eq_some.mp hib
    exact ⟨hcat, in_boundaries_eq_some.mpr ⟨h1, h2, h3, rfl⟩⟩
  exact GInv_fill_core hInv hv hempty hfp

/-- The grid-state invariant survives an engine pop. -/
theorem GInv_pop {cfg : Configuration} {s s2 : RecursionState}
    (hInv : GInv cfg s) (hpc : s.pop_and_clear = some s2) : GInv cfg s2 := by
  obtain ⟨hrows, hcols, hlen, hfree, hocc, hunav, hiu, hchar, hstack, hpw⟩ := hInv
  cases hst : s.stack with
  | nil =>
    unfold RecursionState.pop_and_clear at hpc
    rw [hst] at hpc
    cases hpc
  | cons top rest =>
    obtain ⟨htv, htocc⟩ := hstack top (by rw [hst]; exact List.mem_cons_self _ _)
    obtain ⟨s2', hp, hr2, hc2, hlen2, hat2, hcE2, hcO2, hcU2, hfree2, hstack2,
      hres2, hlim2, hacc2, hiu2, hsr2, hss2, hrt2⟩ :=
      pop_and_clear_spec hlen hst htv htocc
    rw [hp] at hpc
    injection hpc with hpc
    subst hpc
    have hsz : s2'.grid.size_of = s.grid.size_of := by
      simp [GridC.size_of, hr2, hc2]
    have hpwtop : ∀ b ∈ rest, ∀ x ∈ top.iter_relative_to_place,
        x ∉ b.iter_relative_to_place := by
      have := hpw
      rw [hst] at this
      exact fun b hb => List.rel_of_pairwise_cons this hb
    refine ⟨hr2.trans hrows, hc2.trans hcols, by rw [hlen2, hlen, hr2, hc2],
      by omega, ?_, hcU2.trans hunav, hiu2.trans hiu, ?_, ?_, ?_⟩
    · have : s.stack.length = rest.length + 1 := by rw [hst]; rfl
      rw [hstack2]
      omega
    · intro p hpr hpc'
      rw [hat2 p]
      by_cases hp' : p ∈ top.iter_relative_to_place
      · rw [if_pos hp']
        have hpo := htocc p hp'
        constructor
        · intro hc
          cases hc
        · intro hmem
          have := (hchar p (by omega) (by omega)).mpr hmem
          rw [hpo] at this
          cases this
      · rw [if_neg hp']
        exact hchar p (by omega) (by omega)
    · intro t ht
      rw [hstack2] at ht
      obtain ⟨htv', htocc'⟩ := hstack t (by rw [hst]; exact List.mem_cons_of_mem _ ht)
      refine ⟨by rw [hsz]; exact htv', ?_⟩
      intro p hp'
      rw [hat2 p]
      rw [if_neg ?_]
      · exact htocc' p hp'
      · intro hmem
        exact hpwtop t ht p hmem hp'
    · rw [hstack2]
      have := hpw
      rw [hst] at this
      exact this.of_cons

/-- The grid-state invariant survives the acceptance step. -/
theorem GInv_record {cfg : Configuration} {s : RecursionState} (fit : Bool)
    (hInv : GInv cfg s) : GInv cfg (recordResult s fit).1 := by
  obtain ⟨hrows, hcols, hlen, hfree, hocc, hunav, hiu, hchar, hstack, hpw⟩ := hInv
  obtain ⟨-, -, hiu', hg, hf, hstk, -, -⟩ := recordResult_fields s fit
  rw [GInv, hg, hf, hstk, hiu']
  exact ⟨hrows, hcols, hlen, hfree, hocc, hunav, hiu, hchar, hstack, hpw⟩

/-- A freshly constructed engine state satisfies the grid-state invariant
and has no results yet. -/
theorem GInv_init {cfg : Configuration} {seq : Nat → Nat} {s0 : RecursionState}
    (hnd : cfg.unavailable.Nodup)
    (hbnd : ∀ p ∈ cfg.unavailable, p.row < cfg.size.rows ∧ p.col < cfg.size.cols)
    (hwc : with_configuration cfg seq = some s0) :
    GInv cfg s0 ∧ s0.results = [] ∧ s0.stack = [] ∧
      s0.positions_for_lookup = initialLookup s0.grid := by
  have hinitlen : (GridC.init cfg.size.rows cfg.size.cols).cells.length =
      cfg.size.rows * cfg.size.cols := List.length_replicate ..
  have hinitAt : ∀ p : Pos, p.row < cfg.size.rows → p.col < cfg.size.cols →
      (GridC.init cfg.size.rows cfg.size.cols).cellAt p = Cell.Empty := by
    intro p h1 h2
    rw [cellAt_pos (g := GridC.init cfg.size.rows cfg.size.cols) h1 h2]
    rw [List.getD_eq_getElem _ _ (by rw [hinitlen]; exact idx_lt h1 h2)]
    exact List.getElem_replicate ..
  obtain ⟨g', hmk, hgr, hgc, hglen, hgat, hgE, hgO, hgU⟩ :=
    markUnavailable_spec cfg.unavailable (GridC.init cfg.size.rows cfg.size.cols)
      0 (cfg.size.rows * cfg.size.cols) hinitlen hnd
      (fun p hp => ⟨(hbnd p hp).1, (hbnd p hp).2, hinitAt p (hbnd p hp).1 (hbnd p hp).2⟩)
  simp only [with_configuration] at hwc
  rw [hmk] at hwc
  dsimp only at hwc
  cases hwc
  have hcE : (GridC.init cfg.size.rows cfg.size.cols).countCell Cell.Empty =
      cfg.size.rows * cfg.size.cols := by
    simp [GridC.countCell, GridC.init, List.count_replicate]
  have hcO : (GridC.init cfg.size.rows cfg.size.cols).countCell Cell.Occupied = 0 := by
    simp [GridC.countCell, GridC.init, List.count_replicate]
  have hcU : (GridC.init cfg.size.rows cfg.size.cols).countCell Cell.Unavailable = 0 := by
    simp [GridC.countCell, GridC.init, List.count_replicate]
  refine ⟨⟨hgr.trans rfl, hgc.trans rfl, by rw [hglen, hinitlen, hgr, hgc]; rfl, ?_,
    by rw [hgO, hcO]; rfl, by rw [hgU, hcU]; simp, by simp, ?_, ?_, ?_⟩, rfl, rfl, rfl⟩
  · show cfg.size.rows * cfg.size.cols - cfg.unavailable.length =
      g'.countCell Cell.Empty
    have := hgE
    rw [hcE] at this
    omega
  · intro p hpr hpc
    rw [hgat p]
    by_cases hp : p ∈ cfg.unavailable
    · simp [hp]
    · rw [if_neg hp]
      rw [hinitAt p (by rw [hgr] at hpr; exact hpr) (by rw [hgc] at hpc; exact hpc)]
      simp [hp]
  · intro t ht
    cases ht
  · exact List.Pairwise.nil

/-- C2 (amended): every `PlacementResult` a run returns consists of
validated catalog placements covering pairwise disjoint in-bounds cells
away from the blocked set, and at most the usable area; its recorded
`free` field is the literal `0` regardless of the cells actually left
empty at acceptance time. -/
theorem claim_C2 : ∀ (cfg : Configuration) (seq : Nat → Nat) (fuel : Nat)
    (out : RecursionState × RecursionResult),
    cfg.unavailable.Nodup →
    (∀ p ∈ cfg.unavailable, p.row < cfg.size.rows ∧ p.col < cfg.size.cols) →
    runFull cfg seq fuel = some out →
    ∀ r ∈ out.1.results, ResultOK cfg r := by
  intro cfg seq fuel out hnd hbnd hrun
  unfold runFull at hrun
  cases hwc : with_configuration cfg seq with
  | none => rw [hwc] at hrun; cases hrun
  | some s0 =>
    rw [hwc] at hrun
    obtain ⟨hInv0, hres0, -, -⟩ := GInv_init hnd hbnd hwc
    have hmain := recursion_invariant
      (fun x => GInv cfg x ∧ ∀ r ∈ x.results, ResultOK cfg r)
      ?_ ?_ ?_ ?_ fuel s0 out hrun ⟨hInv0, by rw [hres0]; intro r hr; cases hr⟩
    · exact hmain.2
    · rintro x n rt ⟨hx, hr⟩
      exact ⟨hx, hr⟩
    · rintro x tetra ib x1 ⟨hx, hr⟩ hcat hfind hfp
      refine ⟨GInv_fill hx hcat hfind hfp, ?_⟩
      rw [(fill_and_push_preserves hfp).1]
      exact hr
    · rintro x x2 ⟨hx, hr⟩ hpc
      refine ⟨GInv_pop hx hpc, ?_⟩
      rw [(pop_and_clear_preserves hpc).1]
      exact hr
    · rintro x fit ⟨hx, hr⟩
      refine ⟨GInv_record fit hx, ?_⟩
      intro r hrmem
      rw [recordResult_results] at hrmem
      obtain ⟨hrows, hcols, hlen, hfree, hocc, hunav, hiu, hchar, hstack, hpw⟩ := hx
      have hsz : x.grid.size_of = cfg.size := by
        simp only [GridC.size_of, hrows, hcols]
      split at hrmem
      · rcases List.mem_append.mp hrmem with hold | hnew
        · exact hr r hold
        · have hre : r = { placement := x.stack, free := 0 } := by
            simpa using hnew
          subst hre
          refine ⟨rfl, ?_, hpw, ?_⟩
          · intro t ht
            obtain ⟨htv, htocc⟩ := hstack t ht
            refine ⟨by rw [hsz] at htv; exact htv, ?_⟩
            intro p hp
            have hin := cells_inbounds htv p hp
            refine ⟨by rw [← hrows]; exact hin.1, by rw [← hcols]; exact hin.2, ?_⟩
            intro hmem
            have := (hchar p hin.1 hin.2).mpr hmem
            rw [htocc p hp] at this
            cases this
          · have hpart := countCell_partition x.grid.cells
            simp only [GridC.countCell] at hocc hunav
            dsimp only
            rw [hlen, hrows, hcols] at hpart
            omega
      · exact hr r hrmem

/-- Counterexample to C2 as stated: the capped 5×5 run returns one result
with six placements — covering 24 of the 25 free cells, so one cell was
left empty at acceptance — yet its recorded `free` field is `0`. -/
theorem claim_C2_counterexample :
    (runResults cfg5x5cap1 seqId 30).map
      (fun rs => rs.map fun r => (r.placement.length, r.free)) = some [(6, 0)] ∧
    cfg5x5cap1.size.rows * cfg5x5cap1.size.cols -
      cfg5x5cap1.unavailable.length - 4 * 6 ≠ 0 :=
  ⟨by decide, by decide⟩

/-- A cell renders as empty exactly when it is `Empty`. -/
theorem cell_isEmpty_iff {c : Cell} : c.isEmpty = true ↔ c = Cell.Empty := by
  cases c <;> simp [Cell.isEmpty]

/-- Row-major index decoding inverts encoding on an in-bounds column. -/
theorem decode_encode {cols r c : Nat} (hc : c < cols) :
    (r * cols + c) / cols = r ∧ (r * cols + c) % cols = c := by
  have hpos : 0 < cols := Nat.lt_of_le_of_lt (Nat.zero_le _) hc
  constructor
  · rw [Nat.mul_comm, Nat.mul_add_div hpos, Nat.div_eq_of_lt hc, Nat.add_zero]
  · rw [Nat.mul_comm, Nat.mul_add_mod, Nat.mod_eq_of_lt hc]

/-- Membership in the initial candidate cache: exactly the in-bounds
positions reading `Empty`. -/
theorem mem_initialLookup {g : GridC} {p : Pos} :
    p ∈ initialLookup g ↔
      p.row < g.rows ∧ p.col < g.cols ∧ g.cellAt p = Cell.Empty := by
  simp only [initialLookup, List.mem_flatMap, List.mem_filterMap, List.mem_range]
  constructor
  · rintro ⟨row, hrow, col, hcol, hif⟩
    by_cases hc : (g.cellAt { row := row, col := col }).isEmpty = true
    · rw [if_pos hc] at hif
      injection hif with hif
      subst hif
      exact ⟨hrow, hcol, cell_isEmpty_iff.mp hc⟩
    · rw [if_neg hc] at hif
      cases hif
  · rintro ⟨h1, h2, h3⟩
    refine ⟨p.row, h1, p.col, h2, ?_⟩
    show (if (g.cellAt p).isEmpty = true then some p else none) = some p
    rw [h3]
    simp [Cell.isEmpty]

/-- Every `Empty` cell index is re-admitted by the cache rebuild walk,
whatever the exclusion budget. -/
theorem rebuild_mem_empty (cols : Nat) : ∀ (cells : List Cell) (i e j : Nat),
    j < cells.length → cells.getD j Cell.Unavailable = Cell.Empty →
    ({ row := (i + j) / cols, col := (i + j) % cols } : Pos) ∈
      rebuildLookup cols i cells e := by
  intro cells
  induction cells with
  | nil => intro i e j hj _; cases hj
  | cons c rest ih =>
    intro i e j hj hget
    cases j with
    | zero =>
      rw [List.getD_cons_zero] at hget
      subst hget
      simp only [rebuildLookup]
      exact List.mem_cons_self _ _
    | succ j' =>
      rw [List.getD_cons_succ] at hget
      have hj' : j' < rest.length := by
        simp only [List.length_cons] at hj
        omega
      have hpos : i + (j' + 1) = (i + 1) + j' := by omega
      rw [hpos]
      cases c with
      | Empty =>
        simp only [rebuildLookup]
        exact List.mem_cons_of_mem _ (ih (i + 1) e j' hj' hget)
      | Occupied =>
        simp only [rebuildLookup]
        by_cases he : e > 0
        · rw [if_pos he]
          exact ih (i + 1) (e - 1) j' hj' hget
        · rw [if_neg he]
          exact List.mem_cons_of_mem _ (ih (i + 1) e j' hj' hget)
      | Unavailable =>
        simp only [rebuildLookup]
        exact ih (i + 1) e j' hj' hget

/-- With a zero exclusion budget the rebuild walk re-admits every
non-`Unavailable` cell index. -/
theorem rebuild_mem_zero (cols : Nat) : ∀ (cells : List Cell) (i j : Nat),
    j < cells.length → cells.getD j Cell.Unavailable ≠ Cell.Unavailable →
    ({ row := (i + j) / cols, col := (i + j) % cols } : Pos) ∈
      rebuildLookup cols i cells 0 := by
  intro cells
  induction cells with
  | nil => intro i j hj _; cases hj
  | cons c rest ih =>
    intro i j hj hget
    cases j with
    | zero =>
      rw [List.getD_cons_zero] at hget
      cases c with
      | Empty =>
        simp only [rebuildLookup]
        exact List.mem_cons_self _ _
      | Occupied =>
        simp only [rebuildLookup]
        rw [if_neg (by omega)]
        exact List.mem_cons_self _ _
      | Unavailable => exact absurd rfl hget
    | succ j' =>
      rw [List.getD_cons_succ] at hget
      have hj' : j' < rest.length := by
        simp only [List.length_cons] at hj
        omega
      have hpos : i + (j' + 1) = (i + 1) + j' := by omega
      rw [hpos]
      cases c with
      | Empty =>
        simp only [rebuildLookup]
        exact List.mem_cons_of_mem _ (ih (i + 1) j' hj' hget)
      | Occupied =>
        simp only [rebuildLookup]
        rw [if_neg (by omega)]
        exact List.mem_cons_of_mem _ (ih (i + 1) j' hj' hget)
      | Unavailable =>
        simp only [rebuildLookup]
        exact ih (i + 1) j' hj' hget

/-- Size of the rebuilt cache: all `Empty` cells plus the `Occupied` cells
beyond the exclusion budget. -/
theorem rebuild_length (cols : Nat) : ∀ (cells : List Cell) (i e : Nat),
    (rebuildLookup cols i cells e).length + min e (cells.count Cell.Occupied) =
      cells.count Cell.Empty + cells.count Cell.Occupied := by
  intro cells
  induction cells with
  | nil => intro i e; simp [rebuildLookup]
  | cons c rest ih =>
    intro i e
    cases c with
    | Empty =>
      have h := ih (i + 1) e
      simp only [rebuildLookup, List.length_cons, List.count_cons]
      simp only [reduceCtorEq, beq_iff_eq, if_false, if_true, beq_self_eq_true]
      omega
    | Occupied =>
      simp only [rebuildLookup, List.count_cons]
      simp only [reduceCtorEq, beq_iff_eq, if_false, if_true, beq_self_eq_true]
      by_cases he : e > 0
      · rw [if_pos he]
        have h := ih (i + 1) (e - 1)
        omega
      · rw [if_neg he]
        have h := ih (i + 1) e
        simp only [List.length_cons]
        omega
    | Unavailable =>
      have h := ih (i + 1) e
      simp only [rebuildLookup, List.count_cons]
      simp only [reduceCtorEq, beq_iff_eq, if_false]
      omega

/-- Effect of `update_lookup_cache` on the candidate cache: when either the
rebuild condition fires or the current cache already holds every in-bounds
non-blocked position, the updated cache contains every `Empty` position and
is again in one of the two shapes of `CacheInv`. -/
theorem update_cache_spec (m : RecursionState)
    (hlen : m.grid.cells.length = m.grid.rows * m.grid.cols)
    (hcO : m.grid.countCell Cell.Occupied = 4 * m.stack.length)
    (hcU : m.grid.countCell Cell.Unavailable = m.initially_unavailable)
    (hkeep : (m.stack.length <
        (m.grid.cols * m.grid.rows - m.initially_unavailable) -
          m.positions_for_lookup.length ∨
      CACHE_EACH_TETRAS ≤ m.stack.length -
        ((m.grid.cols * m.grid.rows - m.initially_unavailable) -
          m.positions_for_lookup.length)) ∨
      (∀ p : Pos, p.row < m.grid.rows → p.col < m.grid.cols →
        m.grid.cellAt p ≠ Cell.Unavailable → p ∈ m.positions_for_lookup)) :
    (∀ p : Pos, m.grid.cellAt p = Cell.Empty →
      p ∈ (m.update_lookup_cache).positions_for_lookup) ∧
    ((∀ p : Pos, p.row < m.grid.rows → p.col < m.grid.cols →
        m.grid.cellAt p ≠ Cell.Unavailable →
        p ∈ (m.update_lookup_cache).positions_for_lookup) ∨
     ((m.update_lookup_cache).positions_for_lookup.length +
          16 * (m.stack.length / 4) =
        m.grid.cols * m.grid.rows - m.initially_unavailable ∧
      4 ≤ m.stack.length)) := by
  by_cases hcond : m.stack.length <
      (m.grid.cols * m.grid.rows - m.initially_unavailable) -
        m.positions_for_lookup.length ∨
    CACHE_EACH_TETRAS ≤ m.stack.length -
      ((m.grid.cols * m.grid.rows - m.initially_unavailable) -
        m.positions_for_lookup.length)
  · have hlk : (m.update_lookup_cache).positions_for_lookup =
        rebuildLookup m.grid.cols 0 m.grid.cells
          ((m.stack.length - m.stack.length % CACHE_EACH_TETRAS) * 4) := by
      simp only [RecursionState.update_lookup_cache]
      rw [if_pos (by simpa using hcond)]
    have hEmp : ∀ p : Pos, m.grid.cellAt p = Cell.Empty →
        p ∈ (m.update_lookup_cache).positions_for_lookup := by
      intro p hp
      have hb : p.row < m.grid.rows ∧ p.col < m.grid.cols := by
        by_contra hnb
        rw [cellAt_neg hnb] at hp
        cases hp
      have hidx : p.row * m.grid.cols + p.col < m.grid.cells.length := by
        rw [hlen]
        exact idx_lt hb.1 hb.2
      have hget : m.grid.cells.getD (p.row * m.grid.cols + p.col)
          Cell.Unavailable = Cell.Empty := by
        rw [← cellAt_pos hb.1 hb.2]
        exact hp
      have hmem := rebuild_mem_empty m.grid.cols m.grid.cells 0
        ((m.stack.length - m.stack.length % CACHE_EACH_TETRAS) * 4)
        (p.row * m.grid.cols + p.col) hidx hget
      have hde := decode_encode (r := p.row) hb.2
      rw [Nat.zero_add, hde.1, hde.2] at hmem
      rw [hlk]
      exact hmem
    refine ⟨hEmp, ?_⟩
    by_cases hd : m.stack.length < 4
    · left
      intro p h1 h2 hne
      have hidx : p.row * m.grid.cols + p.col < m.grid.cells.length := by
        rw [hlen]
        exact idx_lt h1 h2
      have hget : m.grid.cells.getD (p.row * m.grid.cols + p.col)
          Cell.Unavailable ≠ Cell.Unavailable := by
        rw [← cellAt_pos h1 h2]
        exact hne
      have he0 : (m.stack.length - m.stack.length % CACHE_EACH_TETRAS) * 4 = 0 := by
        simp only [CACHE_EACH_TETRAS]
        omega
      have hmem := rebuild_mem_zero m.grid.cols m.grid.cells 0
        (p.row * m.grid.cols + p.col) hidx hget
      have hde := decode_encode (r := p.row) h2
      rw [Nat.zero_add, hde.1, hde.2] at hmem
      rw [hlk, he0]
      exact hmem
    · right
      rw [hlk]
      have hrl := rebuild_length m.grid.cols m.grid.cells 0
        ((m.stack.length - m.stack.length % CACHE_EACH_TETRAS) * 4)
      have hpart := countCell_partition m.grid.cells
      have hcO' : m.grid.cells.count Cell.Occupied = 4 * m.stack.length := hcO
      have hcU' : m.grid.cells.count Cell.Unavailable =
        m.initially_unavailable := hcU
      have hmul : m.grid.cols * m.grid.rows = m.grid.rows * m.grid.cols :=
        Nat.mul_comm _ _
      simp only [CACHE_EACH_TETRAS] at hrl ⊢
      constructor
      · omega
      · omega
  · have hlk : (m.update_lookup_cache).positions_for_lookup =
        m.positions_for_lookup := by
      simp only [RecursionState.update_lookup_cache]
      rw [if_neg (by simpa using hcond)]
    rcases hkeep with hre | hcomp
    · exact absurd hre hcond
    · refine ⟨?_, Or.inl (by rw [hlk]; exact hcomp)⟩
      intro p hp
      rw [hlk]
      have hb : p.row < m.grid.rows ∧ p.col < m.grid.cols := by
        by_contra hnb
        rw [cellAt_neg hnb] at hp
        cases hp
      refine hcomp p hb.1 hb.2 ?_
      rw [hp]
      intro h
      cases h

/-- The cache invariant survives an engine-issued fill. -/
theorem CacheInv_fill {cfg : Configuration} {s : RecursionState}
    {t : PlacedTetraInBoundaries} {s1 : RecursionState}
    (hCI : CacheInv cfg s) (hval : validFill s t = true)
    (hfp : s.fill_and_push t = some s1) : CacheInv cfg s1 := by
  obtain ⟨hG, hE, hAB⟩ := hCI
  have hvparts := hval
  simp only [validFill, Bool.and_eq_true, decide_eq_true_eq,
    List.all_eq_true] at hvparts
  obtain ⟨⟨hcat, hib⟩, hempb⟩ := hvparts
  have hv : ValidatedFor t s.grid.size_of := ⟨hcat, hib⟩
  have hempty : ∀ p ∈ t.iter_relative_to_place,
      s.grid.cellAt p = Cell.Empty := by
    intro p hp
    exact cell_isEmpty_iff.mp (hempb p hp)
  have hG1 : GInv cfg s1 := GInv_fill_core hG hv hempty hfp
  obtain ⟨hrows, hcols, hlen, hfree, hocc, hunav, hiu, hchar, hstack, hpw⟩ := hG
  obtain ⟨gF, hfill, hrF, hcF, hlenF, hatF, hcEF, hcOF, hcUF⟩ :=
    fillCells_spec t.iter_relative_to_place s.grid s.how_many_free hlen
      (cells_nodup hv)
      (fun p hp => ⟨(cells_inbounds hv p hp).1, (cells_inbounds hv p hp).2,
        hempty p hp⟩)
  have hfp2 : s.fill_and_push t = some (RecursionState.update_lookup_cache
      { s with
        grid := gF
        how_many_free := s.how_many_free - t.iter_relative_to_place.length
        stack := t :: s.stack }) := by
    simp only [RecursionState.fill_and_push, hfill]
  rw [hfp2] at hfp
  injection hfp with hfp
  subst hfp
  set m : RecursionState :=
    { s with
      grid := gF
      how_many_free := s.how_many_free - t.iter_relative_to_place.length
      stack := t :: s.stack } with hmdef
  have hmlen : m.grid.cells.length = m.grid.rows * m.grid.cols := by
    show gF.cells.length = gF.rows * gF.cols
    rw [hlenF, hlen, hrF, hcF]
  have hmcO : m.grid.countCell Cell.Occupied = 4 * m.stack.length := by
    show gF.countCell Cell.Occupied = 4 * (t :: s.stack).length
    rw [hcOF, hocc, cells_length hv]
    simp only [List.length_cons]
    omega
  have hmcU : m.grid.countCell Cell.Unavailable = m.initially_unavailable := by
    show gF.countCell Cell.Unavailable = s.initially_unavailable
    rw [hcUF, hunav, hiu]
  have hkeep : (m.stack.length <
      (m.grid.cols * m.grid.rows - m.initially_unavailable) -
        m.positions_for_lookup.length ∨
    CACHE_EACH_TETRAS ≤ m.stack.length -
      ((m.grid.cols * m.grid.rows - m.initially_unavailable) -
        m.positions_for_lookup.length)) ∨
    (∀ p : Pos, p.row < m.grid.rows → p.col < m.grid.cols →
      m.grid.cellAt p ≠ Cell.Unavailable → p ∈ m.positions_for_lookup) := by
    rcases hAB with hcomp | hB
    · right
      intro p h1 h2 hne
      have h1g : p.row < gF.rows := h1
      have h2g : p.col < gF.cols := h2
      have hneg : gF.cellAt p ≠ Cell.Unavailable := hne
      show p ∈ s.positions_for_lookup
      by_cases hpc : p ∈ t.iter_relative_to_place
      · exact hE p (hempty p hpc)
      · rw [hatF p, if_neg hpc] at hneg
        exact hcomp p (by rw [← hrF]; exact h1g) (by rw [← hcF]; exact h2g) hneg
    · left
      left
      obtain ⟨hBlen, hB4⟩ := hB
      show (t :: s.stack).length <
        (gF.cols * gF.rows - s.initially_unavailable) -
          s.positions_for_lookup.length
      rw [hcF, hrF]
      simp only [List.length_cons]
      omega
  obtain ⟨hE', hAB'⟩ := update_cache_spec m hmlen hmcO hmcU hkeep
  obtain ⟨hug, huf, hus, hur, hul, hua, huiu, husr, huss, hurt⟩ :=
    update_fields m
  refine ⟨hG1, ?_, ?_⟩
  · intro p hp
    rw [hug] at hp
    exact hE' p hp
  · rcases hAB' with hA | hB'
    · left
      intro p h1 h2 hne
      rw [hug] at h1 h2 hne
      exact hA p h1 h2 hne
    · right
      rw [hug, hus, huiu]
      exact hB'

/-- The cache invariant survives an engine pop. -/
theorem CacheInv_pop {cfg : Configuration} {s s2 : RecursionState}
    (hCI : CacheInv cfg s) (hpc : s.pop_and_clear = some s2) :
    CacheInv cfg s2 := by
  obtain ⟨hG, hE, hAB⟩ := hCI
  have hG2 : GInv cfg s2 := GInv_pop hG hpc
  obtain ⟨hrows, hcols, hlen, hfree, hocc, hunav, hiu, hchar, hstack, hpw⟩ := hG
  cases hst : s.stack with
  | nil =>
    unfold RecursionState.pop_and_clear at hpc
    rw [hst] at hpc
    cases hpc
  | cons top rest =>
    obtain ⟨htv, htocc⟩ := hstack top (by rw [hst]; exact List.mem_cons_self _ _)
    obtain ⟨gU, hunfill, hrU, hcU2, hlenU, hatU, hcEU, hcOU, hcUU⟩ :=
      unfillCells_spec top.iter_relative_to_place s.grid s.how_many_free hlen
        (cells_nodup htv)
        (fun p hp => ⟨(cells_inbounds htv p hp).1, (cells_inbounds htv p hp).2,
          htocc p hp⟩)
    have hpc2 : s.pop_and_clear = some (RecursionState.update_lookup_cache
        { s with
          grid := gU
          how_many_free := s.how_many_free + top.iter_relative_to_place.length
          stack := rest }) := by
      simp only [RecursionState.pop_and_clear, hst, hunfill]
    rw [hpc2] at hpc
    injection hpc with hpc
    subst hpc
    set m : RecursionState :=
      { s with
        grid := gU
        how_many_free := s.how_many_free + top.iter_relative_to_place.length
        stack := rest } with hmdef
    have hstlen : s.stack.length = rest.length + 1 := by
      rw [hst]
      rfl
    have hmlen : m.grid.cells.length = m.grid.rows * m.grid.cols := by
      show gU.cells.length = gU.rows * gU.cols
      rw [hlenU, hlen, hrU, hcU2]
    have hmcO : m.grid.countCell Cell.Occupied = 4 * m.stack.length := by
      show gU.countCell Cell.Occupied = 4 * rest.length
      have h4 := cells_length htv
      omega
    have hmcU : m.grid.countCell Cell.Unavailable = m.initially_unavailable := by
      show gU.countCell Cell.Unavailable = s.initially_unavailable
      rw [hcUU, hunav, hiu]
    have hkeep : (m.stack.length <
        (m.grid.cols * m.grid.rows - m.initially_unavailable) -
          m.positions_for_lookup.length ∨
      CACHE_EACH_TETRAS ≤ m.stack.length -
        ((m.grid.cols * m.grid.rows - m.initially_unavailable) -
          m.positions_for_lookup.length)) ∨
      (∀ p : Pos, p.row < m.grid.rows → p.col < m.grid.cols →
        m.grid.cellAt p ≠ Cell.Unavailable → p ∈ m.positions_for_lookup) := by
      rcases hAB with hcomp | hB
      · right
        intro p h1 h2 hne
        have h1g : p.row < gU.rows := h1
        have h2g : p.col < gU.cols := h2
        have hneg : gU.cellAt p ≠ Cell.Unavailable := hne
        show p ∈ s.positions_for_lookup
        by_cases hpmem : p ∈ top.iter_relative_to_place
        · refine hcomp p (by rw [← hrU]; exact h1g) (by rw [← hcU2]; exact h2g) ?_
          rw [htocc p hpmem]
          intro h
          cases h
        · rw [hatU p, if_neg hpmem] at hneg
          exact hcomp p (by rw [← hrU]; exact h1g) (by rw [← hcU2]; exact h2g) hneg
      · left
        left
        obtain ⟨hBlen, hB4⟩ := hB
        show rest.length <
          (gU.cols * gU.rows - s.initially_unavailable) -
            s.positions_for_lookup.length
        rw [hcU2, hrU]
        omega
    obtain ⟨hE', hAB'⟩ := update_cache_spec m hmlen hmcO hmcU hkeep
    obtain ⟨hug, huf, hus, hur, hul, hua, huiu, husr, huss, hurt⟩ :=
      update_fields m
    refine ⟨hG2, ?_, ?_⟩
    · intro p hp
      rw [hug] at hp
      exact hE' p hp
    · rcases hAB' with hA | hB'
      · left
        intro p h1 h2 hne
        rw [hug] at h1 h2 hne
        exact hA p h1 h2 hne
      · right
        rw [hug, hus, huiu]
        exact hB'

/-- A freshly constructed engine state satisfies the cache invariant. -/
theorem CacheInv_init {cfg : Configuration} {seq : Nat → Nat}
    {s0 : RecursionState}
    (hnd : cfg.unavailable.Nodup)
    (hbnd : ∀ p ∈ cfg.unavailable, p.row < cfg.size.rows ∧ p.col < cfg.size.cols)
    (hwc : with_configuration cfg seq = some s0) : CacheInv cfg s0 := by
  obtain ⟨hG, -, hstk, hlkp⟩ := GInv_init hnd hbnd hwc
  obtain ⟨hrows, hcols, hlen, hfree, hocc, hunav, hiu, hchar, hstack, hpw⟩ := hG
  have hnoO : s0.grid.countCell Cell.Occupied = 0 := by
    rw [hocc, hstk]
    rfl
  have hcomp : ∀ p : Pos, p.row < s0.grid.rows → p.col < s0.grid.cols →
      s0.grid.cellAt p ≠ Cell.Unavailable → p ∈ s0.positions_for_lookup := by
    intro p h1 h2 hne
    rw [hlkp]
    apply mem_initialLookup.mpr
    refine ⟨h1, h2, ?_⟩
    cases hc : s0.grid.cellAt p with
    | Empty => rfl
    | Occupied =>
      have := one_le_countCell hlen h1 h2 hc
      rw [hnoO] at this
      exact absurd this (by omega)
    | Unavailable => exact absurd hc hne
  refine ⟨⟨hrows, hcols, hlen, hfree, hocc, hunav, hiu, hchar, hstack, hpw⟩,
    ?_, Or.inl hcomp⟩
  intro p hp
  have hb : p.row < s0.grid.rows ∧ p.col < s0.grid.cols := by
    by_contra hnb
    rw [cellAt_neg hnb] at hp
    cases hp
  refine hcomp p hb.1 hb.2 ?_
  rw [hp]
  intro h
  cases h

/-- The cache invariant survives any finite sequence of engine-issued
steps. -/
theorem CacheInv_ops {cfg : Configuration} : ∀ (ops : List EngineOp)
    (s s' : RecursionState), CacheInv cfg s → applyOps ops s = some s' →
    CacheInv cfg s' := by
  intro ops
  induction ops with
  | nil =>
    intro s s' h hap
    injection hap with hap
    rw [← hap]
    exact h
  | cons op rest ih =>
    intro s s' h hap
    unfold applyOps at hap
    cases hop : applyOp s op with
    | none => rw [hop] at hap; cases hap
    | some s1 =>
      rw [hop] at hap
      have h1 : CacheInv cfg s1 := by
        cases op with
        | fill t =>
          simp only [applyOp] at hop
          by_cases hvl : validFill s t = true
          · rw [if_pos hvl] at hop
            exact CacheInv_fill h hvl hop
          · rw [if_neg hvl] at hop
            cases hop
        | unfill =>
          simp only [applyOp] at hop
          exact CacheInv_pop h hop
      exact ih s1 s' h1 hap

/-- C6 (confirmed): starting from a freshly constructed engine state, after
any finite sequence of engine-issued fill/unfill steps (each fill a
validated placement covering only `Empty` cells, each unfill popping the
stack top, exactly the discipline under which the engine mutates the
grid), the candidate position cache contains every position whose cell is
currently `Empty`. -/
theorem claim_C6 : ∀ (cfg : Configuration) (seq : Nat → Nat)
    (ops : List EngineOp) (s0 s : RecursionState),
    cfg.unavailable.Nodup →
    (∀ p ∈ cfg.unavailable, p.row < cfg.size.rows ∧ p.col < cfg.size.cols) →
    with_configuration cfg seq = some s0 →
    applyOps ops s0 = some s →
    ∀ p : Pos, s.grid.cellAt p = Cell.Empty → p ∈ s.positions_for_lookup := by
  intro cfg seq ops s0 s hnd hbnd hwc hap
  exact (CacheInv_ops ops s0 s (CacheInv_init hnd hbnd hwc) hap).2.1

/-- Witness for C6: on the empty 2×4 grid, after one engine fill of the
square at the origin, the still-empty cell `(0, 2)` is in the cache. -/
theorem claim_C6_witness :
    st2x4f.grid.cellAt { row := 0, col := 2 } = Cell.Empty ∧
    ({ row := 0, col := 2 } : Pos) ∈ st2x4f.positions_for_lookup := by
  constructor
  · decide
  · exact claim_C6 cfg2x4 seqId [EngineOp.fill sq00] st2x4 st2x4f (by decide)
      (by decide) (Option.some_get _).symm (Option.some_get _).symm
      { row := 0, col := 2 } (by decide)

/-- Witness for C2 (amended) on the capped 5×5 run's only result. -/
theorem claim_C2_witness :
    run5x5.1.results.length = 1 ∧
    ResultOK cfg5x5cap1
      (run5x5.1.results.getD 0 { placement := [], free := 0 }) := by
  refine ⟨by decide, ?_⟩
  have h := claim_C2 cfg5x5cap1 seqId 30 run5x5 (by decide) (by decide)
    (Option.some_get _).symm
  apply h
  have hlen : 0 < run5x5.1.results.length := by decide
  rw [List.getD_eq_getElem _ _ hlen]
  exact List.getElem_mem hlen

/-- The newline-inclusive chunks flatten back to the source text. -/
theorem splitInclusiveNl_flatten : ∀ s : List Char,
    (splitInclusiveNl s).flatten = s := by
  intro s
  induction s with
  | nil => rfl
  | cons c rest ih =>
    simp only [splitInclusiveNl]
    by_cases hc : c = '\n'
    · rw [if_pos hc]
      simp only [List.flatten_cons, List.singleton_append]
      rw [ih]
    · rw [if_neg hc]
      cases hsp : splitInclusiveNl rest with
      | nil =>
        have hrest : rest = [] := by rw [← ih, hsp]; rfl
        subst hrest
        rfl
      | cons l ls =>
        simp only [List.flatten_cons]
        rw [← ih, hsp]
        simp

/-- `stripNR` removes a trailing newline and then a trailing carriage
return, so it returns the line, its `dropLast`, or its double
`dropLast`. -/
theorem stripNR_cases (l : List Char) :
    stripNR l = l ∨ stripNR l = l.dropLast ∨ stripNR l = l.dropLast.dropLast := by
  simp only [stripNR]
  split
  · exact Or.inl rfl
  · split
    · split
      · exact Or.inr (Or.inl rfl)
      · split
        · exact Or.inr (Or.inr rfl)
        · exact Or.inr (Or.inl rfl)
    · exact Or.inl rfl

/-- The stripped line is an initial segment of its chunk. -/
theorem stripNR_getD (l : List Char) (d : Char) :
    (stripNR l).length ≤ l.length ∧
    ∀ i, i < (stripNR l).length → (stripNR l).getD i d = l.getD i d := by
  have hdl : ∀ (m : List Char) (i : Nat), i < m.dropLast.length →
      m.dropLast.getD i d = m.getD i d := by
    intro m i h
    have hlt : i < m.length := by
      have := List.length_dropLast m
      omega
    rw [List.getD_eq_getElem _ _ h, List.getD_eq_getElem _ _ hlt]
    exact List.getElem_dropLast ..
  have h1 := List.length_dropLast l
  have h2 := List.length_dropLast l.dropLast
  rcases stripNR_cases l with h | h | h <;> rw [h]
  · exact ⟨Nat.le_refl _, fun i _ => rfl⟩
  · exact ⟨by omega, hdl l⟩
  · refine ⟨by omega, ?_⟩
    intro i hi
    rw [hdl l.dropLast i hi, hdl l i (by omega)]

/-- Offset correctness of the line iterator: every yielded line sits in the
flattened chunks at its recorded offset. -/
theorem linesGo_char (d : Char) : ∀ (chunks : List (List Char)) (off o : Nat)
    (line : List Char), (o, line) ∈ linesGo off chunks →
    off ≤ o ∧ o + line.length ≤ off + chunks.flatten.length ∧
    ∀ col, col < line.length →
      chunks.flatten.getD (o - off + col) d = line.getD col d := by
  intro chunks
  induction chunks with
  | nil => intro off o line h; cases h
  | cons chunk rest ih =>
    intro off o line h
    rw [linesGo] at h
    rcases List.mem_cons.mp h with heq | htail
    · injection heq with ho hl
      subst ho
      subst hl
      obtain ⟨hsle, hsget⟩ := stripNR_getD chunk d
      refine ⟨Nat.le_refl _, ?_, ?_⟩
      · simp only [List.flatten_cons, List.length_append]
        omega
      · intro col hcol
        have hz : o - o + col = col := by omega
        rw [hz]
        simp only [List.flatten_cons]
        rw [List.getD_append _ _ _ _ (by omega)]
        exact (hsget col hcol).symm
    · obtain ⟨h1, h2, h3⟩ := ih (off + chunk.length) o line htail
      refine ⟨by omega, ?_, ?_⟩
      · simp only [List.flatten_cons, List.length_append]
        omega
      · intro col hcol
        simp only [List.flatten_cons]
        rw [List.getD_append_right _ _ _ _ (by omega)]
        have hix : o - off + col - chunk.length =
            o - (off + chunk.length) + col := by omega
        rw [hix]
        exact h3 col hcol

/-- `parseRow` on a row of valid glyphs returns exactly its busy
positions. -/
theorem parseRow_ok (ce cb : Char) (row offset : Nat) : ∀ (cs : List Char)
    (col : Nat), (∀ ch ∈ cs, ch = ce ∨ ch = cb) →
    parseRow ce cb row offset col cs = Except.ok (specBusyRow cb row col cs) := by
  intro cs
  induction cs with
  | nil => intro col _; rfl
  | cons c rest ih =>
    intro col hall
    have hh := hall c (List.mem_cons_self _ _)
    have ht : ∀ x ∈ rest, x = ce ∨ x = cb :=
      fun x hx => hall x (List.mem_cons_of_mem _ hx)
    by_cases hb : c = cb
    · simp only [parseRow, specBusyRow, if_pos hb, ih (col + 1) ht]
    · have he : c = ce := by
        rcases hh with h | h
        · exact h
        · exact absurd h hb
      simp only [parseRow, specBusyRow, if_neg hb, if_pos he]
      exact ih (col + 1) ht

/-- A successful `parseRow` forces every character to be a glyph. -/
theorem parseRow_ok_chars (ce cb : Char) (row offset : Nat) :
    ∀ (cs : List Char) (col : Nat) (ps : List Pos),
    parseRow ce cb row offset col cs = Except.ok ps →
    ∀ ch ∈ cs, ch = ce ∨ ch = cb := by
  intro cs
  induction cs with
  | nil => intro col ps _ ch hch; cases hch
  | cons c rest ih =>
    intro col ps h ch hch
    simp only [parseRow] at h
    by_cases hb : c = cb
    · rw [if_pos hb] at h
      rcases List.mem_cons.mp hch with rfl | hm
      · exact Or.inr hb
      · cases hr : parseRow ce cb row offset (col + 1) rest with
        | error e => rw [hr] at h; cases h
        | ok ps' => exact ih (col + 1) ps' hr ch hm
    · rw [if_neg hb] at h
      by_cases he : c = ce
      · rw [if_pos he] at h
        rcases List.mem_cons.mp hch with rfl | hm
        · exact Or.inl he
        · exact ih (col + 1) ps h ch hm
      · rw [if_neg he] at h
        cases h

/-- A failing `parseRow` fails with `UnexpectedCharacter` whose span points
at the offending column. -/
theorem parseRow_error_char (ce cb : Char) (row offset : Nat) :
    ∀ (cs : List Char) (col : Nat) (err : ParseError),
    parseRow ce cb row offset col cs = Except.error err →
    ∃ j, j < cs.length ∧
      err = ParseError.UnexpectedCharacter (offset + (col + j), 1) cb ce ∧
      cs.getD j ce ≠ cb ∧ cs.getD j ce ≠ ce := by
  intro cs
  induction cs with
  | nil => intro col err h; cases h
  | cons c rest ih =>
    intro col err h
    simp only [parseRow] at h
    by_cases hb : c = cb
    · rw [if_pos hb] at h
      cases hr : parseRow ce cb row offset (col + 1) rest with
      | error e =>
        rw [hr] at h
        injection h with h
        obtain ⟨j, hj, herr, h1, h2⟩ := ih (col + 1) e hr
        have hco : col + 1 + j = col + (j + 1) := by omega
        rw [hco] at herr
        refine ⟨j + 1, by simp only [List.length_cons]; omega, ?_, ?_, ?_⟩
        · rw [← h, herr]
        · rw [List.getD_cons_succ]; exact h1
        · rw [List.getD_cons_succ]; exact h2
      | ok ps => rw [hr] at h; cases h
    · rw [if_neg hb] at h
      by_cases he : c = ce
      · rw [if_pos he] at h
        obtain ⟨j, hj, herr, h1, h2⟩ := ih (col + 1) err h
        have hco : col + 1 + j = col + (j + 1) := by omega
        rw [hco] at herr
        refine ⟨j + 1, by simp only [List.length_cons]; omega, herr, ?_, ?_⟩
        · rw [List.getD_cons_succ]; exact h1
        · rw [List.getD_cons_succ]; exact h2
      · rw [if_neg he] at h
        injection h with h
        refine ⟨0, by simp, ?_, ?_, ?_⟩
        · rw [← h, Nat.add_zero]
        · rw [List.getD_cons_zero]; exact hb
        · rw [List.getD_cons_zero]; exact he

/-- Row counting: a successful `parseLines` processed every line. -/
theorem parseLines_count (ce cb : Char) : ∀ (lines : List (Nat × List Char))
    (row cols rows : Nat) (acc : List Pos) (c r : Nat) (u : List Pos),
    parseLines ce cb lines row cols rows acc = Except.ok (c, r, u) →
    r = rows + lines.length := by
  intro lines
  induction lines with
  | nil =>
    intro row cols rows acc c r u h
    injection h with h
    injection h with h1 h2
    injection h2 with h2 h3
    simp only [List.length_nil]
    omega
  | cons pr rest ih =>
    obtain ⟨off, line⟩ := pr
    intro row cols rows acc c r u h
    simp only [parseLines] at h
    by_cases h0 : cols = 0
    · rw [if_pos h0] at h
      by_cases h2 : line.length < 2
      · rw [if_pos h2] at h
        cases h
      · rw [if_neg h2] at h
        cases hr : parseRow ce cb row off 0 line with
        | error e => rw [hr] at h; cases h
        | ok ps =>
          rw [hr] at h
          have := ih (row + 1) line.length (rows + 1) (acc ++ ps) c r u h
          simp only [List.length_cons]
          omega
    · rw [if_neg h0] at h
      by_cases hl : line.length ≠ cols
      · rw [if_pos hl] at h
        cases h
      · rw [if_neg hl] at h
        cases hr : parseRow ce cb row off 0 line with
        | error e => rw [hr] at h; cases h
        | ok ps =>
          rw [hr] at h
          have := ih (row + 1) cols (rows + 1) (acc ++ ps) c r u h
          simp only [List.length_cons]
          omega

/-- In the established phase (`cols ≠ 0`), `parseLines` succeeds on valid
rows and appends exactly their busy positions. -/
theorem parseLines_ok_val (ce cb : Char) : ∀ (lines : List (Nat × List Char))
    (row cols rows : Nat) (acc : List Pos),
    cols ≠ 0 →
    (∀ pr ∈ lines, (pr.2 : List Char).length = cols ∧
      ∀ ch ∈ pr.2, ch = ce ∨ ch = cb) →
    parseLines ce cb lines row cols rows acc =
      Except.ok (cols, rows + lines.length,
        acc ++ specBusyLines cb row (lines.map Prod.snd)) := by
  intro lines
  induction lines with
  | nil =>
    intro row cols rows acc h0 hall
    simp [parseLines, specBusyLines]
  | cons pr rest ih =>
    obtain ⟨off, line⟩ := pr
    intro row cols rows acc h0 hall
    obtain ⟨hlen, hch⟩ := hall (off, line) (List.mem_cons_self _ _)
    have hrest := fun pr hpr => hall pr (List.mem_cons_of_mem _ hpr)
    simp only [parseLines, if_neg h0, if_neg (not_not_intro hlen),
      parseRow_ok ce cb row off line 0 hch,
      ih (row + 1) cols (rows + 1) (acc ++ specBusyRow cb row 0 line) h0 hrest,
      specBusyLines, List.map_cons, List.length_cons, List.length_map,
      List.append_assoc]
    rw [Nat.add_right_comm, Nat.add_assoc]

/-- A successful `parseLines` in the established phase forces every row to
have the reference length with only glyph characters. -/
theorem parseLines_ok_chars (ce cb : Char) : ∀ (lines : List (Nat × List Char))
    (row cols rows : Nat) (acc : List Pos) (c r : Nat) (u : List Pos),
    cols ≠ 0 →
    parseLines ce cb lines row cols rows acc = Except.ok (c, r, u) →
    ∀ pr ∈ lines, (pr.2 : List Char).length = cols ∧
      ∀ ch ∈ pr.2, ch = ce ∨ ch = cb := by
  intro lines
  induction lines with
  | nil => intro row cols rows acc c r u _ _ pr hpr; cases hpr
  | cons hd rest ih =>
    obtain ⟨off, line⟩ := hd
    intro row cols rows acc c r u h0 h pr hpr
    simp only [parseLines, if_neg h0] at h
    by_cases hl : line.length ≠ cols
    · rw [if_pos hl] at h
      cases h
    · rw [if_neg hl] at h
      cases hr : parseRow ce cb row off 0 line with
      | error e => rw [hr] at h; cases h
      | ok ps =>
        rw [hr] at h
        rcases List.mem_cons.mp hpr with rfl | hm
        · exact ⟨not_not.mp hl, parseRow_ok_chars ce cb row off line 0 ps hr⟩
        · exact ih (row + 1) cols (rows + 1) (acc ++ ps) c r u h0 h pr hm

/-- An `UnexpectedCharacter` failure of the row loop points inside one of
its lines, at a character that is neither glyph. -/
theorem parseLines_unexpected (ce cb : Char) : ∀ (lines : List (Nat × List Char))
    (row cols rows : Nat) (acc : List Pos) (loc : Nat × Nat) (b e : Char),
    parseLines ce cb lines row cols rows acc =
      Except.error (ParseError.UnexpectedCharacter loc b e) →
    b = cb ∧ e = ce ∧ ∃ off line j, (off, line) ∈ lines ∧ j < line.length ∧
      loc = (off + j, 1) ∧ line.getD j ce ≠ cb ∧ line.getD j ce ≠ ce := by
  intro lines
  induction lines with
  | nil => intro row cols rows acc loc b e h; cases h
  | cons hd rest ih =>
    obtain ⟨off, line⟩ := hd
    intro row cols rows acc loc b e h
    simp only [parseLines] at h
    have hrow : ∀ (rw0 : Nat) (err : ParseError),
        parseRow ce cb rw0 off 0 line = Except.error err →
        Except.error (α := Nat × Nat × List Pos) err =
          Except.error (ParseError.UnexpectedCharacter loc b e) →
        b = cb ∧ e = ce ∧ ∃ o l j, (o, l) ∈ (off, line) :: rest ∧
          j < l.length ∧ loc = (o + j, 1) ∧
          l.getD j ce ≠ cb ∧ l.getD j ce ≠ ce := by
      intro rw0 err hr heq
      injection heq with heq
      obtain ⟨j, hj, herr, h1, h2⟩ := parseRow_error_char ce cb rw0 off line 0 err hr
      rw [herr] at heq
      injection heq with e1 e2 e3
      refine ⟨e2.symm, e3.symm, off, line, j, List.mem_cons_self _ _, hj, ?_, h1, h2⟩
      rw [← e1]
      rw [Nat.zero_add]
    by_cases h0 : cols = 0
    · rw [if_pos h0] at h
      by_cases h2 : line.length < 2
      · rw [if_pos h2] at h
        injection h with h
        cases h
      · rw [if_neg h2] at h
        cases hr : parseRow ce cb row off 0 line with
        | error e' =>
          rw [hr] at h
          exact hrow row e' hr h
        | ok ps =>
          rw [hr] at h
          obtain ⟨hb, he, o, l, j, hm, rest'⟩ :=
            ih (row + 1) line.length (rows + 1) (acc ++ ps) loc b e h
          exact ⟨hb, he, o, l, j, List.mem_cons_of_mem _ hm, rest'⟩
    · rw [if_neg h0] at h
      by_cases hl : line.length ≠ cols
      · rw [if_pos hl] at h
        injection h with h
        cases h
      · rw [if_neg hl] at h
        cases hr : parseRow ce cb row off 0 line with
        | error e' =>
          rw [hr] at h
          exact hrow row e' hr h
        | ok ps =>
          rw [hr] at h
          obtain ⟨hb, he, o, l, j, hm, rest'⟩ :=
            ih (row + 1) cols (rows + 1) (acc ++ ps) loc b e h
          exact ⟨hb, he, o, l, j, List.mem_cons_of_mem _ hm, rest'⟩

/-- A `FickleRowLength` failure of the row loop names an actual line whose
length is the reported deviating length. -/
theorem parseLines_fickle (ce cb : Char) : ∀ (lines : List (Nat × List Char))
    (row cols rows : Nat) (acc : List Pos) (ref bad : Nat × Nat) (cref cact : Nat),
    parseLines ce cb lines row cols rows acc =
      Except.error (ParseError.FickleRowLength ref bad cref cact) →
    ref = (0, cref) ∧ cact ≠ cref ∧ ∃ off line, (off, line) ∈ lines ∧
      bad = (off, line.length) ∧ cact = line.length := by
  intro lines
  induction lines with
  | nil => intro row cols rows acc ref bad cref cact h; cases h
  | cons hd rest ih =>
    obtain ⟨off, line⟩ := hd
    intro row cols rows acc ref bad cref cact h
    simp only [parseLines] at h
    by_cases h0 : cols = 0
    · rw [if_pos h0] at h
      by_cases h2 : line.length < 2
      · rw [if_pos h2] at h
        injection h with h
        cases h
      · rw [if_neg h2] at h
        cases hr : parseRow ce cb row off 0 line with
        | error e' =>
          rw [hr] at h
          injection h with h
          obtain ⟨j, hj, herr, -, -⟩ :=
            parseRow_error_char ce cb row off line 0 e' hr
          rw [herr] at h
          cases h
        | ok ps =>
          rw [hr] at h
          obtain ⟨h1, h2', o, l, hm, hbad, hcact⟩ :=
            ih (row + 1) line.length (rows + 1) (acc ++ ps) ref bad cref cact h
          exact ⟨h1, h2', o, l, List.mem_cons_of_mem _ hm, hbad, hcact⟩
    · rw [if_neg h0] at h
      by_cases hl : line.length ≠ cols
      · rw [if_pos hl] at h
        injection h with h
        injection h with e1 e2 e3 e4
        refine ⟨?_, ?_, off, line, List.mem_cons_self _ _, ?_, e4.symm⟩
        · rw [← e1, ← e3]
        · rw [← e3, ← e4]
          exact hl
        · rw [← e2]
      · rw [if_neg hl] at h
        cases hr : parseRow ce cb row off 0 line with
        | error e' =>
          rw [hr] at h
          injection h with h
          obtain ⟨j, hj, herr, -, -⟩ :=
            parseRow_error_char ce cb row off line 0 e' hr
          rw [herr] at h
          cases h
        | ok ps =>
          rw [hr] at h
          obtain ⟨h1, h2', o, l, hm, hbad, hcact⟩ :=
            ih (row + 1) cols (rows + 1) (acc ++ ps) ref bad cref cact h
          exact ⟨h1, h2', o, l, List.mem_cons_of_mem _ hm, hbad, hcact⟩

/-- A `NotEnoughColumns` failure of the row loop happens only in the
initial phase, on the head line, which is shorter than two characters. -/
theorem parseLines_nec (ce cb : Char) : ∀ (lines : List (Nat × List Char))
    (row cols rows : Nat) (acc : List Pos) (sp : Nat × Nat),
    parseLines ce cb lines row cols rows acc =
      Except.error (ParseError.NotEnoughColumns sp) →
    cols = 0 ∧ ∃ off line rest, lines = (off, line) :: rest ∧
      sp = (off, line.length) ∧ line.length < 2 := by
  intro lines
  induction lines with
  | nil => intro row cols rows acc sp h; cases h
  | cons hd rest ih =>
    obtain ⟨off, line⟩ := hd
    intro row cols rows acc sp h
    simp only [parseLines] at h
    by_cases h0 : cols = 0
    · rw [if_pos h0] at h
      by_cases h2 : line.length < 2
      · rw [if_pos h2] at h
        injection h with h
        injection h with e1
        exact ⟨h0, off, line, rest, rfl, e1.symm, h2⟩
      · rw [if_neg h2] at h
        cases hr : parseRow ce cb row off 0 line with
        | error e' =>
          rw [hr] at h
          injection h with h
          obtain ⟨j, hj, herr, -, -⟩ :=
            parseRow_error_char ce cb row off line 0 e' hr
          rw [herr] at h
          cases h
        | ok ps =>
          rw [hr] at h
          have := (ih (row + 1) line.length (rows + 1) (acc ++ ps) sp h).1
          omega
    · rw [if_neg h0] at h
      by_cases hl : line.length ≠ cols
      · rw [if_pos hl] at h
        injection h with h
        cases h
      · rw [if_neg hl] at h
        cases hr : parseRow ce cb row off 0 line with
        | error e' =>
          rw [hr] at h
          injection h with h
          obtain ⟨j, hj, herr, -, -⟩ :=
            parseRow_error_char ce cb row off line 0 e' hr
          rw [herr] at h
          cases h
        | ok ps =>
          rw [hr] at h
          have := (ih (row + 1) cols (rows + 1) (acc ++ ps) sp h).1
          exact absurd this h0

/-- The row loop never reports `NotEnoughRows` itself (that check lives in
the caller). -/
theorem parseLines_ner (ce cb : Char) : ∀ (lines : List (Nat × List Char))
    (row cols rows : Nat) (acc : List Pos) (sp : Nat × Nat),
    parseLines ce cb lines row cols rows acc ≠
      Except.error (ParseError.NotEnoughRows sp) := by
  intro lines
  induction lines with
  | nil => intro row cols rows acc sp h; cases h
  | cons hd rest ih =>
    obtain ⟨off, line⟩ := hd
    intro row cols rows acc sp h
    simp only [parseLines] at h
    by_cases h0 : cols = 0
    · rw [if_pos h0] at h
      by_cases h2 : line.length < 2
      · rw [if_pos h2] at h
        injection h with h
        cases h
      · rw [if_neg h2] at h
        cases hr : parseRow ce cb row off 0 line with
        | error e' =>
          rw [hr] at h
          injection h with h
          obtain ⟨j, hj, herr, -, -⟩ :=
            parseRow_error_char ce cb row off line 0 e' hr
          rw [herr] at h
          cases h
        | ok ps =>
          rw [hr] at h
          exact ih (row + 1) line.length (rows + 1) (acc ++ ps) sp h
    · rw [if_neg h0] at h
      by_cases hl : line.length ≠ cols
      · rw [if_pos hl] at h
        injection h with h
        cases h
      · rw [if_neg hl] at h
        cases hr : parseRow ce cb row off 0 line with
        | error e' =>
          rw [hr] at h
          injection h with h
          obtain ⟨j, hj, herr, -, -⟩ :=
            parseRow_error_char ce cb row off line 0 e' hr
          rw [herr] at h
          cases h
        | ok ps =>
          rw [hr] at h
          exact ih (row + 1) cols (rows + 1) (acc ++ ps) sp h

/-- A successful parse forces the input lines to be well-formed. -/
theorem parse_ok_valid (ce cb : Char) (source : List Char) (pf : ParsedField)
    (h : parse_without_source_code ce cb source = Except.ok pf) :
    specValid ce cb ((lines_with_offsets source).map Prod.snd) := by
  simp only [parse_without_source_code] at h
  cases hpl : parseLines ce cb (lines_with_offsets source) 0 0 0 [] with
  | error e => rw [hpl] at h; cases h
  | ok tr =>
    obtain ⟨c, r, u⟩ := tr
    rw [hpl] at h
    dsimp only at h
    by_cases hr0 : r = 0
    · rw [if_pos hr0] at h
      cases h
    · rw [if_neg hr0] at h
      by_cases hr2 : r < 2
      · rw [if_pos hr2] at h
        cases h
      · rw [if_neg hr2] at h
        have hcount := parseLines_count ce cb _ 0 0 0 [] c r u hpl
        cases hls : lines_with_offsets source with
        | nil =>
          rw [hls] at hcount
          simp only [List.length_nil] at hcount
          omega
        | cons pr rest =>
          obtain ⟨o0, l0⟩ := pr
          rw [hls] at hpl hcount
          simp only [parseLines, if_pos rfl] at hpl
          by_cases h2 : l0.length < 2
          · rw [if_pos h2] at hpl
            cases hpl
          · rw [if_neg h2] at hpl
            cases hpr : parseRow ce cb 0 o0 0 l0 with
            | error e' => rw [hpr] at hpl; cases hpl
            | ok ps =>
              rw [hpr] at hpl
              have hrestok := parseLines_ok_chars ce cb rest 1 l0.length 1
                ([] ++ ps) c r u (by omega) hpl
              have hheadch := parseRow_ok_chars ce cb 0 o0 l0 0 ps hpr
              refine ⟨?_, ?_, ?_, ?_⟩
              · simp only [List.length_map, List.length_cons] at hcount ⊢
                omega
              · simp only [List.map_cons, List.headD_cons]
                omega
              · intro l hl
                simp only [List.map_cons, List.headD_cons]
                simp only [List.map_cons, List.mem_cons] at hl
                rcases hl with rfl | hl'
                · rfl
                · obtain ⟨pr', hpr', rfl⟩ := List.mem_map.mp hl'
                  exact (hrestok pr' hpr').1
              · intro l hl
                simp only [List.map_cons, List.mem_cons] at hl
                rcases hl with rfl | hl'
                · exact hheadch
                · obtain ⟨pr', hpr', rfl⟩ := List.mem_map.mp hl'
                  exact (hrestok pr' hpr').2

/-- Well-formed input lines parse successfully, to the expected size and
exactly the busy-glyph positions. -/
theorem specValid_parse (ce cb : Char) (source : List Char)
    (h : specValid ce cb ((lines_with_offsets source).map Prod.snd)) :
    parse_without_source_code ce cb source =
      Except.ok ⟨⟨(lines_with_offsets source).length,
          (((lines_with_offsets source).map Prod.snd).headD []).length⟩,
        specBusyLines cb 0 ((lines_with_offsets source).map Prod.snd)⟩ := by
  obtain ⟨h2r, h2c, hlens, hchars⟩ := h
  cases hls : lines_with_offsets source with
  | nil =>
    rw [hls] at h2r
    simp at h2r
  | cons pr rest =>
    obtain ⟨o0, l0⟩ := pr
    rw [hls] at h2r h2c hlens hchars
    simp only [List.map_cons, List.headD_cons, List.length_cons,
      List.length_map] at h2r h2c hlens hchars
    have hch0 : ∀ ch ∈ l0, ch = ce ∨ ch = cb :=
      hchars l0 (List.mem_cons_self _ _)
    have hrest : ∀ pr ∈ rest, (pr.2 : List Char).length = l0.length ∧
        ∀ ch ∈ pr.2, ch = ce ∨ ch = cb := by
      intro pr hpr
      have hmm : (pr.2 : List Char) ∈ l0 :: List.map Prod.snd rest :=
        List.mem_cons_of_mem _ (List.mem_map_of_mem _ hpr)
      exact ⟨hlens pr.2 hmm, hchars pr.2 hmm⟩
    simp only [parse_without_source_code, hls, parseLines, if_pos rfl, if_true,
      if_neg (show ¬ l0.length < 2 by omega),
      parseRow_ok ce cb 0 o0 l0 0 hch0,
      parseLines_ok_val ce cb rest 1 l0.length 1
        ([] ++ specBusyRow cb 0 0 l0) (by omega) hrest]
    rw [if_neg (show ¬ (1 + rest.length = 0) by omega),
      if_neg (show ¬ (1 + rest.length < 2) by omega)]
    simp only [List.map_cons, List.headD_cons, List.length_cons,
      specBusyLines, List.nil_append]
    rw [Nat.add_comm 1 rest.length]

/-- C9 (confirmed): parsing succeeds exactly on well-formed inputs (at
least two stripped lines, the first at least two characters long,
homogeneous lengths, only the two glyphs); a success carries the size
`(row count, first-row length)` and exactly the busy-glyph positions; and
each failure's span data locates the fault: the unexpected-character span
points at a source character that is neither glyph, the fickle-row-length
span names an actual line of the deviating length, the not-enough-rows
span covers the whole (single-row) source, and the not-enough-columns
span covers the short first row.  (An input with no lines at all fails
with the separate anonymous `EmptyInput` report instead.) -/
theorem claim_C9 : ∀ (ce cb : Char) (source : List Char),
    ((∃ pf, parse_without_source_code ce cb source = Except.ok pf) ↔
      specValid ce cb ((lines_with_offsets source).map Prod.snd)) ∧
    (∀ pf, parse_without_source_code ce cb source = Except.ok pf →
      pf.size.rows = (lines_with_offsets source).length ∧
      pf.size.cols = (((lines_with_offsets source).map Prod.snd).headD []).length ∧
      pf.unavailable =
        specBusyLines cb 0 ((lines_with_offsets source).map Prod.snd)) ∧
    (∀ loc b e, parse_without_source_code ce cb source =
        Except.error (ParseError.UnexpectedCharacter loc b e) →
      b = cb ∧ e = ce ∧ loc.2 = 1 ∧ loc.1 < source.length ∧
      source.getD loc.1 ce ≠ cb ∧ source.getD loc.1 ce ≠ ce) ∧
    (∀ ref bad cref cact, parse_without_source_code ce cb source =
        Except.error (ParseError.FickleRowLength ref bad cref cact) →
      ref = (0, cref) ∧ cact ≠ cref ∧
      ∃ off line, (off, line) ∈ lines_with_offsets source ∧
        bad = (off, line.length) ∧ cact = line.length) ∧
    (∀ sp, parse_without_source_code ce cb source =
        Except.error (ParseError.NotEnoughRows sp) →
      sp = (0, source.length) ∧ (lines_with_offsets source).length = 1) ∧
    (∀ sp, parse_without_source_code ce cb source =
        Except.error (ParseError.NotEnoughColumns sp) →
      ∃ line rest, lines_with_offsets source = (0, line) :: rest ∧
        sp = (0, line.length) ∧ line.length < 2) := by
  intro ce cb source
  refine ⟨⟨?_, ?_⟩, ?_, ?_, ?_, ?_, ?_⟩
  · rintro ⟨pf, h⟩
    exact parse_ok_valid ce cb source pf h
  · intro hv
    exact ⟨_, specValid_parse ce cb source hv⟩
  · intro pf h
    have hv := parse_ok_valid ce cb source pf h
    have heq := specValid_parse ce cb source hv
    rw [h] at heq
    injection heq with heq
    subst heq
    exact ⟨rfl, rfl, rfl⟩
  · intro loc b e h
    simp only [parse_without_source_code] at h
    cases hpl : parseLines ce cb (lines_with_offsets source) 0 0 0 [] with
    | error e' =>
      rw [hpl] at h
      injection h with h
      subst h
      obtain ⟨hb, he, off, line, j, hmem, hj, hloc, hne1, hne2⟩ :=
        parseLines_unexpected ce cb _ 0 0 0 [] loc b e hpl
      obtain ⟨h0le, hbound, hcol⟩ :=
        linesGo_char ce (splitInclusiveNl source) 0 off line hmem
      have hflat := splitInclusiveNl_flatten source
      rw [hflat] at hbound hcol
      have hcj := hcol j hj
      have hix : off - 0 + j = off + j := by omega
      rw [hix] at hcj
      subst hloc
      refine ⟨hb, he, rfl, by omega, ?_, ?_⟩
      · show source.getD (off + j) ce ≠ cb
        rw [hcj]
        exact hne1
      · show source.getD (off + j) ce ≠ ce
        rw [hcj]
        exact hne2
    | ok tr =>
      obtain ⟨c, r, u⟩ := tr
      rw [hpl] at h
      dsimp only at h
      by_cases hr0 : r = 0
      · rw [if_pos hr0] at h
        injection h with h
        cases h
      · rw [if_neg hr0] at h
        by_cases hr2 : r < 2
        · rw [if_pos hr2] at h
          injection h with h
          cases h
        · rw [if_neg hr2] at h
          cases h
  · intro ref bad cref cact h
    simp only [parse_without_source_code] at h
    cases hpl : parseLines ce cb (lines_with_offsets source) 0 0 0 [] with
    | error e' =>
      rw [hpl] at h
      injection h with h
      subst h
      exact parseLines_fickle ce cb _ 0 0 0 [] ref bad cref cact hpl
    | ok tr =>
      obtain ⟨c, r, u⟩ := tr
      rw [hpl] at h
      dsimp only at h
      by_cases hr0 : r = 0
      · rw [if_pos hr0] at h
        injection h with h
        cases h
      · rw [if_neg hr0] at h
        by_cases hr2 : r < 2
        · rw [if_pos hr2] at h
          injection h with h
          cases h
        · rw [if_neg hr2] at h
          cases h
  · intro sp h
    simp only [parse_without_source_code] at h
    cases hpl : parseLines ce cb (lines_with_offsets source) 0 0 0 [] with
    | error e' =>
      rw [hpl] at h
      injection h with h
      subst h
      exact absurd hpl (parseLines_ner ce cb _ 0 0 0 [] sp)
    | ok tr =>
      obtain ⟨c, r, u⟩ := tr
      rw [hpl] at h
      dsimp only at h
      have hcount := parseLines_count ce cb _ 0 0 0 [] c r u hpl
      by_cases hr0 : r = 0
      · rw [if_pos hr0] at h
        injection h with h
        cases h
      · rw [if_neg hr0] at h
        by_cases hr2 : r < 2
        · rw [if_pos hr2] at h
          injection h with h
          injection h with h1
          exact ⟨h1.symm, by omega⟩
        · rw [if_neg hr2] at h
          cases h
  · intro sp h
    simp only [parse_without_source_code] at h
    cases hpl : parseLines ce cb (lines_with_offsets source) 0 0 0 [] with
    | error e' =>
      rw [hpl] at h
      injection h with h
      subst h
      obtain ⟨-, off, line, rest0, hlines, hsp, hlen2⟩ :=
        parseLines_nec ce cb _ 0 0 0 [] sp hpl
      have hlw : lines_with_offsets source =
          linesGo 0 (splitInclusiveNl source) := rfl
      cases hchunks : splitInclusiveNl source with
      | nil =>
        rw [hlw, hchunks] at hlines
        simp only [linesGo] at hlines
        cases hlines
      | cons ch cs =>
        have hlines2 := hlines
        rw [hlw, hchunks] at hlines2
        simp only [linesGo] at hlines2
        injection hlines2 with h1 h2
        injection h1 with ho hl
        refine ⟨line, rest0, ?_, ?_, hlen2⟩
        · rw [hlines, ho]
        · rw [hsp, ho]
    | ok tr =>
      obtain ⟨c, r, u⟩ := tr
      rw [hpl] at h
      dsimp only at h
      by_cases hr0 : r = 0
      · rw [if_pos hr0] at h
        injection h with h
        cases h
      · rw [if_neg hr0] at h
        by_cases hr2 : r < 2
        · rw [if_pos hr2] at h
          injection h with h
          cases h
        · rw [if_neg hr2] at h
          cases h

/-- Witness for C9: a well-formed 2×2 field parses to the expected busy
set, and an input with a stray character fails with a span pointing at
it. -/
theorem claim_C9_witness :
    (∃ pf, parse_without_source_code '-' '+'
        ['-', '-', '\n', '-', '+'] = Except.ok pf) ∧
    (ParsedField.unavailable
        ⟨⟨2, 2⟩, [{ row := 1, col := 1 }]⟩ =
      specBusyLines '+' 0
        ((lines_with_offsets ['-', '-', '\n', '-', '+']).map Prod.snd)) ∧
    ((4 : Nat) < (['-', '-', '\n', '-', '#'] : List Char).length ∧
      (['-', '-', '\n', '-', '#'] : List Char).getD 4 '-' ≠ '+' ∧
      (['-', '-', '\n', '-', '#'] : List Char).getD 4 '-' ≠ '-') := by
  refine ⟨(claim_C9 '-' '+' ['-', '-', '\n', '-', '+']).1.mpr
      (by unfold specValid; decide),
    ((claim_C9 '-' '+' ['-', '-', '\n', '-', '+']).2.1
      ⟨⟨2, 2⟩, [{ row := 1, col := 1 }]⟩ rfl).2.2, ?_⟩
  have h := (claim_C9 '-' '+' ['-', '-', '\n', '-', '#']).2.2.1 (4, 1) '+' '-'
    rfl
  exact ⟨h.2.2.2.1, h.2.2.2.2.1, h.2.2.2.2.2⟩

end BrutalTetris
